import Mathlib

/-!
# Verification of the fix-codec tag/value wire codec

A shallow embedding, in Lean 4, of the core of the `fix-codec-rs` repository:

* `src/decoder.rs` — `Decoder::decode`, embedded as `decode` below;
* `src/message.rs` — `Message::find`, `Message::groups`,
  `Message::validate_body_length`, `Message::validate_checksum`;
* `src/group.rs`   — `Group::groups`, `GroupIter::next` (iterated to a list),
  `parse_count`;
* `src/encoder.rs` — `Encoder::encode`;
* `src/checksum.rs` / `src/body_length.rs` — `compute_checksum`,
  `parse_checksum`, `parse_body_length`.

Byte buffers are `List Nat` (each element a byte value), tags are `Nat`
(`parse_tag` guarantees `< 2^32`), and the decoder's offset table is a
`List Entry` with `Entry = (tag, value_start, value_end)`.

Machine-integer detail that matters and is modelled explicitly: the sorted
lookup index built by `Message::find` stores each field position as a `u16`
(`i as u16` in `message.rs`), so positions are reduced modulo `2^16` here.

The module `src/tag.rs` (referenced by every source file) is not part of the
provided sources; `parse_tag` below is therefore modelled from the spec, as
marked in its doc comment.
-/

namespace FixCodec

/-- A FIX tag. In the source this is `type Tag = u32`; `parse_tag` only ever
produces values `< 2^32`. -/
abbrev Tag := Nat

/-- One offset-table entry `(tag, value_start, value_end)`, as stored by
`Decoder::decode` (`decoder.rs`, the `offsets` field). -/
abbrev Entry := Tag × Nat × Nat

/-- `src/error.rs` — `FixError`. The enum in `error.rs` lists the first six
variants; `message.rs` additionally uses `InvalidBodyLength` and
`InvalidCheckSum`, so the embedding carries all eight. -/
inductive FixError where
  | InvalidTag
  | InvalidUtf8
  | InvalidValue
  | IncompleteMessage
  | EncodeError
  | DecodeError
  | InvalidBodyLength
  | InvalidCheckSum
deriving DecidableEq, Repr

/-- `src/field.rs` — `FIELD_SEPARATOR` (the SOH byte `0x01`). -/
def FIELD_SEPARATOR : Nat := 1

/-- `src/field.rs` — `FIELD_KEY_VALUE_SEPARATOR` (the byte `b'='` = 61). -/
def FIELD_KEY_VALUE_SEPARATOR : Nat := 61

/-- The sub-slice `&buf[a..b]` of a byte buffer. -/
def slice (buf : List Nat) (a b : Nat) : List Nat :=
  (buf.drop a).take (b - a)

/-- Generic first-index search: the index (counted from `acc`) of the first
element satisfying `p`. Backs both `memchr` calls in `decoder.rs` and the
`iter().position`/`iter().enumerate().find` scans in `message.rs`/`group.rs`. -/
def findIdxAux (p : α → Bool) : List α → Nat → Option Nat
  | [], _ => none
  | x :: rest, acc => if p x then some acc else findIdxAux p rest (acc + 1)

/-- `memchr(c, &buf[start..]).map(|i| i + start)`: absolute index of the first
occurrence of byte `c` at an index `≥ start`. -/
def memchrFrom (c : Nat) (buf : List Nat) (start : Nat) : Option Nat :=
  findIdxAux (fun b => b == c) (buf.drop start) start

/-- Modelled from the spec: the module `src/tag.rs` (tag type and `parse_tag`)
is not among the provided sources. Spec 4.1: the decoder "parses the tag as a
non-empty run of decimal digits fitting in 32 bits (else fails with InvalidTag
— covers empty tag, non-digit bytes, and numeric overflow)". -/
def parse_tag (bytes : List Nat) : Option Tag :=
  if bytes.isEmpty then none
  else if bytes.all (fun b => 48 ≤ b && b ≤ 57) then
    let n := bytes.foldl (fun acc b => acc * 10 + (b - 48)) 0
    if n < 4294967296 then some n else none
  else none

/-- The loop body of `Decoder::decode` (`decoder.rs` lines 80-100), with the
remaining loop-iteration budget made explicit as structural fuel. The fuel
branch is unreachable for `fuel > buf.length - pos` (each iteration advances
`pos` by at least 2), which is proved below (`decodeAux_fuel`). The stored
value positions are kept as unbounded naturals here; the `as u32` casts that
`decoder.rs` applies to the two stored positions (line 96,
`push((tag, (eq_pos + 1) as u32, soh_pos as u32))`) are modelled exactly by
`decodeAuxU32` below, which wraps both stored positions modulo `2^32` and is
related to this function entry-by-entry by `decodeAuxU32_eq`. The loop
position itself (`pos = soh_pos + 1`) is a `usize` in the source and is not
cast, in either function. -/
def decodeAux (buf : List Nat) : Nat → Nat → Except FixError (List Entry)
  | 0, _ => .error .DecodeError
  | fuel + 1, pos =>
    if pos < buf.length then
      match memchrFrom FIELD_KEY_VALUE_SEPARATOR buf pos with
      | none => .error .IncompleteMessage
      | some eqPos =>
        match parse_tag (slice buf pos eqPos) with
        | none => .error .InvalidTag
        | some t =>
          match memchrFrom FIELD_SEPARATOR buf (eqPos + 1) with
          | none => .error .IncompleteMessage
          | some sohPos =>
            match decodeAux buf fuel (sohPos + 1) with
            | .error e => .error e
            | .ok rest => .ok ((t, eqPos + 1, sohPos) :: rest)
    else .ok []

/-- `Decoder::decode` (`decoder.rs`): scan the buffer left to right producing
the offset table. The cleared-and-reused `SmallVec` is modelled by the
returned list (clearing means each call starts from the empty table). -/
def decode (buf : List Nat) : Except FixError (List Entry) :=
  decodeAux buf (buf.length + 1) 0

/-- The `as u32` cast applied to the two stored positions of an offset entry
(`decoder.rs` line 96): positions are reduced modulo `2^32`, the tag is
already a `u32`. -/
def wrapEntry (e : Entry) : Entry := (e.1, e.2.1 % 4294967296, e.2.2 % 4294967296)

/-- The loop body of `Decoder::decode` with the stored positions wrapped
exactly as `decoder.rs` line 96 does (`(eq_pos + 1) as u32`, `soh_pos as
u32`): identical to `decodeAux` except that each pushed entry passes through
`wrapEntry`. The loop position (a `usize`) still advances unwrapped. -/
def decodeAuxU32 (buf : List Nat) : Nat → Nat → Except FixError (List Entry)
  | 0, _ => .error .DecodeError
  | fuel + 1, pos =>
    if pos < buf.length then
      match memchrFrom FIELD_KEY_VALUE_SEPARATOR buf pos with
      | none => .error .IncompleteMessage
      | some eqPos =>
        match parse_tag (slice buf pos eqPos) with
        | none => .error .InvalidTag
        | some t =>
          match memchrFrom FIELD_SEPARATOR buf (eqPos + 1) with
          | none => .error .IncompleteMessage
          | some sohPos =>
            match decodeAuxU32 buf fuel (sohPos + 1) with
            | .error e => .error e
            | .ok rest => .ok ((t, (eqPos + 1) % 4294967296, sohPos % 4294967296) :: rest)
    else .ok []

/-- `Decoder::decode` with the stored entries wrapped as the source stores
them (`u32` fields of the offset tuple). -/
def decodeU32 (buf : List Nat) : Except FixError (List Entry) :=
  decodeAuxU32 buf (buf.length + 1) 0

/-- C9 counterexample buffer, built structurally: `8=a|9=<2^32 - 2 digit
bytes>|` — the second field's value terminator sits at byte `2^32 + 4`, past
the `u32` boundary. -/
def c9big : List Nat :=
  56 :: 61 :: 97 :: 1 :: 57 :: 61 :: (List.replicate 4294967294 48 ++ [1])

/-- `src/checksum.rs` — `compute_checksum`: wrapping (`u8`) sum of all bytes. -/
def compute_checksum (bytes : List Nat) : Nat :=
  bytes.foldl (fun acc b => (acc + b) % 256) 0

/-- ASCII whitespace, as stripped by Rust `str::trim` (restricted to the ASCII
range; the full Unicode whitespace set of `char::is_whitespace` is not
modelled — every claim below is insensitive to this because both the code-side
and the spec-side statements go through this same function). -/
def isAsciiWs (b : Nat) : Bool :=
  b == 32 || b == 9 || b == 10 || b == 11 || b == 12 || b == 13

/-- `str::trim` on a byte string (ASCII model, see `isAsciiWs`). -/
def trimAscii (l : List Nat) : List Nat :=
  ((l.dropWhile isAsciiWs).reverse.dropWhile isAsciiWs).reverse

/-- Rust `str::parse::<uN>` on a trimmed byte string: an optional leading `+`,
then a non-empty run of decimal digits, failing on overflow past `bound`. -/
def parseDecNat (l : List Nat) (bound : Nat) : Option Nat :=
  let l := match l with
    | 43 :: rest => rest
    | _ => l
  if l.isEmpty then none
  else if l.all (fun b => 48 ≤ b && b ≤ 57) then
    let n := l.foldl (fun acc b => acc * 10 + (b - 48)) 0
    if n < bound then some n else none
  else none

/-- `src/body_length.rs` — `parse_body_length`: UTF-8 decode, trim, parse as
`usize` (64-bit). Any non-digit byte makes the parse fail, which subsumes the
UTF-8 validity check for the inputs these claims range over. -/
def parse_body_length (value : List Nat) : Option Nat :=
  parseDecNat (trimAscii value) 18446744073709551616

/-- `src/checksum.rs` — `parse_checksum`: trim, parse as `u32`, require
`≤ 255`. -/
def parse_checksum (value : List Nat) : Option Nat :=
  match parseDecNat (trimAscii value) 4294967296 with
  | none => none
  | some n => if n > 255 then none else some n

/-- `src/group.rs` — `parse_count`: decimal parse that returns 0 on the first
non-digit byte, with `usize` (`2^64`) wrapping arithmetic. -/
def parse_countAux : List Nat → Nat → Nat
  | [], n => n
  | b :: rest, n =>
    if 48 ≤ b && b ≤ 57 then
      parse_countAux rest ((n * 10 + (b - 48)) % 18446744073709551616)
    else 0

/-- `src/group.rs` — `parse_count bytes`. -/
def parse_count (bytes : List Nat) : Nat :=
  parse_countAux bytes 0

/-- Canonical decimal ASCII rendering of a `Nat` (Rust `u32::to_string` /
`usize::to_string`), with structural fuel (`n + 1` divisions by 10 always
suffice). -/
def natDigitsAux : Nat → Nat → List Nat
  | 0, _ => []
  | fuel + 1, n =>
    if n < 10 then [48 + n]
    else natDigitsAux fuel (n / 10) ++ [48 + n % 10]

/-- Canonical decimal ASCII rendering of a `Nat`. -/
def natDigits (n : Nat) : List Nat :=
  natDigitsAux (n + 1) n

/-- Rust `format!("{:03}", n)`: the decimal rendering left-padded with `'0'`
to width 3 (`encoder.rs` line 134). -/
def pad3 (n : Nat) : List Nat :=
  List.replicate (3 - (natDigits n).length) 48 ++ natDigits n

instance {ε α : Type} [DecidableEq ε] [DecidableEq α] : DecidableEq (Except ε α) := fun a b =>
  match a, b with
  | .ok x, .ok y =>
    if h : x = y then .isTrue (by rw [h]) else .isFalse (fun hc => by cases hc; exact h rfl)
  | .error e, .error f =>
    if h : e = f then .isTrue (by rw [h]) else .isFalse (fun hc => by cases hc; exact h rfl)
  | .ok _, .error _ => .isFalse (fun hc => by cases hc)
  | .error _, .ok _ => .isFalse (fun hc => by cases hc)

/-- Relational description of the buffers accepted by `Decoder::decode` from a
given position: the remaining bytes split into `tag-bytes, '=', value, SOH`
chunks, and the produced entries record the value positions. -/
inductive DecodesFrom (raw : List Nat) : Nat → List Entry → Prop where
  | nil (pos : Nat) (h : raw.length ≤ pos) : DecodesFrom raw pos []
  | cons (pos : Nat) (tb v rest : List Nat) (t : Tag) (L : List Entry)
      (htb : (61 : Nat) ∉ tb) (hv : (1 : Nat) ∉ v) (ht : parse_tag tb = some t)
      (hdrop : raw.drop pos = tb ++ 61 :: (v ++ 1 :: rest))
      (hrec : DecodesFrom raw (pos + tb.length + 1 + v.length + 1) L) :
      DecodesFrom raw pos ((t, pos + tb.length + 1, pos + tb.length + 1 + v.length) :: L)

/-- The comparison used to build the sorted index of `Message::find`
(`sort_unstable_by_key(|&(t, _)| t)` in `message.rs`): pairs compared by tag
only. -/
def tagLe (a b : Tag × Nat) : Prop := a.1 ≤ b.1

instance : DecidableRel tagLe := fun a b => Nat.decLe a.1 b.1

instance : IsTotal (Tag × Nat) tagLe := ⟨fun a b => Nat.le_total a.1 b.1⟩

instance : IsTrans (Tag × Nat) tagLe := ⟨fun _ _ _ h1 h2 => Nat.le_trans h1 h2⟩

/-- The index-building loop of `Message::find`: push `(tag, i as u16)` for
every entry `i` in order. The `u16` cast is the `% 65536`. -/
def indexPairsAux : List Entry → Nat → List (Tag × Nat)
  | [], _ => []
  | e :: rest, i => (e.1, i % 65536) :: indexPairsAux rest (i + 1)

/-- The cached sorted index of `Message::find`: the index pairs sorted by tag.
`sort_unstable_by_key` is modelled by a sorting function (insertion sort);
no theorem below depends on how pairs with equal tags are ordered among
themselves. -/
def sortedIndex (offs : List Entry) : List (Tag × Nat) :=
  List.insertionSort tagLe (indexPairsAux offs 0)

/-- `Message::find` (`message.rs` lines 110-131): `partition_point` (the
length of the prefix on which `t < tag` holds) over the sorted index, then a
positional lookup in the offset table. A found field is returned as
`(tag, value bytes)`. The `OnceCell` caching memoizes a pure function of the
message, so every call returns this same value. -/
def Message.find (buf : List Nat) (offs : List Entry) (t : Tag) : Option (Tag × List Nat) :=
  let sorted := sortedIndex offs
  let idx := (sorted.takeWhile (fun p => decide (p.1 < t))).length
  match sorted[idx]? with
  | none => none
  | some p =>
    if p.1 = t then
      let e := offs.getD p.2 (0, 0, 0)
      some (e.1, slice buf e.2.1 e.2.2)
    else none

/-- Spec-side reference for C1: the front-to-back linear scan of `fields()`
for the first field whose tag equals `t`. -/
def findFirstScan (buf : List Nat) (offs : List Entry) (t : Tag) : Option (Tag × List Nat) :=
  match offs.find? (fun e => e.1 == t) with
  | none => none
  | some e => some (e.1, slice buf e.2.1 e.2.2)

/-- `Message::validate_body_length` (`message.rs` lines 207-242). Constants:
tag 9 is `BODY_LENGTH`, tag 10 is `CHECK_SUM` (per the doc comments in
`message.rs`; `tag.rs` itself is not in the provided sources). `Nat`
subtraction models `saturating_sub`; the `checksum_value_start as usize - 3`
subtraction cannot underflow on decoded messages, since a tag parsing to 10
occupies at least two bytes before its `=`. -/
def Message.validate_body_length (buf : List Nat) (offs : List Entry) :
    Except FixError Unit :=
  if offs.length < 3 then .error .InvalidBodyLength
  else
    let f1 := offs.getD 1 (0, 0, 0)
    if f1.1 ≠ 9 then .error .InvalidBodyLength
    else
      let fl := offs.getD (offs.length - 1) (0, 0, 0)
      if fl.1 ≠ 10 then .error .InvalidBodyLength
      else
        match parse_body_length (slice buf f1.2.1 f1.2.2) with
        | none => .error .InvalidBodyLength
        | some declared =>
          let bodyStart := f1.2.2 + 1
          let ckTagStart := fl.2.1 - 3
          let computed := ckTagStart - bodyStart
          if computed = declared then .ok () else .error .InvalidBodyLength

/-- `Message::validate_checksum` (`message.rs` lines 256-283). -/
def Message.validate_checksum (buf : List Nat) (offs : List Entry) :
    Except FixError Unit :=
  if offs.length = 0 then .error .InvalidCheckSum
  else
    let fl := offs.getD (offs.length - 1) (0, 0, 0)
    if fl.1 ≠ 10 then .error .InvalidCheckSum
    else
      match parse_checksum (slice buf fl.2.1 fl.2.2) with
      | none => .error .InvalidCheckSum
      | some declared =>
        let ckTagStart := fl.2.1 - 3
        if compute_checksum (buf.take ckTagStart) = declared then .ok ()
        else .error .InvalidCheckSum

/-- The byte position, in the raw buffer, where the `i`-th field's chunk (its
tag bytes) begins: 0 for the first field, one past the previous field's
value-end (its SOH byte) otherwise. This renders the spec's phrase "the start
of the checksum field's tag bytes". -/
def chunkStartD (offs : List Entry) : Nat → Nat
  | 0 => 0
  | i + 1 => (offs.getD i (0, 0, 0)).2.2 + 1

/-- The acceptance condition of claim C6 as stated: at least 3 fields, the
length field (tag 9) at position 1, the checksum field (tag 10) last, and the
length value parsing to exactly the byte count of the region strictly between
the end of the length field and the start of the checksum field's tag bytes. -/
def bodyLengthClaim (buf : List Nat) (offs : List Entry) : Prop :=
  3 ≤ offs.length ∧
  (offs.getD 1 (0, 0, 0)).1 = 9 ∧
  (offs.getD (offs.length - 1) (0, 0, 0)).1 = 10 ∧
  parse_body_length (slice buf (offs.getD 1 (0, 0, 0)).2.1 (offs.getD 1 (0, 0, 0)).2.2) =
    some (slice buf ((offs.getD 1 (0, 0, 0)).2.2 + 1) (chunkStartD offs (offs.length - 1))).length

/-- The acceptance condition of C6 amended: the body region ends three bytes
before the checksum field's value (where its tag bytes start when the tag is
rendered canonically as `10=`), rather than at the true start of its tag
bytes. -/
def bodyLengthAmendedCond (buf : List Nat) (offs : List Entry) : Prop :=
  3 ≤ offs.length ∧
  (offs.getD 1 (0, 0, 0)).1 = 9 ∧
  (offs.getD (offs.length - 1) (0, 0, 0)).1 = 10 ∧
  parse_body_length (slice buf (offs.getD 1 (0, 0, 0)).2.1 (offs.getD 1 (0, 0, 0)).2.2) =
    some (slice buf ((offs.getD 1 (0, 0, 0)).2.2 + 1)
      ((offs.getD (offs.length - 1) (0, 0, 0)).2.1 - 3)).length

/-- The acceptance condition of claim C7 as stated: the checksum field (tag
10) is the last field, and its value parses (as a decimal in 0–255, which is
what `parse_checksum` accepts) to exactly the modulo-256 sum of every raw byte
strictly before the checksum field's own tag-prefix bytes. -/
def checksumClaim (buf : List Nat) (offs : List Entry) : Prop :=
  1 ≤ offs.length ∧
  (offs.getD (offs.length - 1) (0, 0, 0)).1 = 10 ∧
  parse_checksum (slice buf (offs.getD (offs.length - 1) (0, 0, 0)).2.1
      (offs.getD (offs.length - 1) (0, 0, 0)).2.2) =
    some ((buf.take (chunkStartD offs (offs.length - 1))).sum % 256)

/-- The acceptance condition of C7 amended: the summed region ends three bytes
before the checksum field's value, rather than at the true start of its tag
bytes. -/
def checksumAmendedCond (buf : List Nat) (offs : List Entry) : Prop :=
  1 ≤ offs.length ∧
  (offs.getD (offs.length - 1) (0, 0, 0)).1 = 10 ∧
  parse_checksum (slice buf (offs.getD (offs.length - 1) (0, 0, 0)).2.1
      (offs.getD (offs.length - 1) (0, 0, 0)).2.2) =
    some ((buf.take ((offs.getD (offs.length - 1) (0, 0, 0)).2.1 - 3)).sum % 256)

instance (buf : List Nat) (offs : List Entry) : Decidable (bodyLengthClaim buf offs) := by
  unfold bodyLengthClaim; infer_instance

instance (buf : List Nat) (offs : List Entry) : Decidable (checksumClaim buf offs) := by
  unfold checksumClaim; infer_instance

instance (buf : List Nat) (offs : List Entry) : Decidable (bodyLengthAmendedCond buf offs) := by
  unfold bodyLengthAmendedCond; infer_instance

instance (buf : List Nat) (offs : List Entry) : Decidable (checksumAmendedCond buf offs) := by
  unfold checksumAmendedCond; infer_instance

/-- The positions the decoding loop visits: 0, then one past each completed
field's terminator. -/
inductive Reaches (raw : List Nat) : Nat → Prop where
  | zero : Reaches raw 0
  | step (pos q t w : Nat) (h : Reaches raw pos)
      (hq : memchrFrom FIELD_KEY_VALUE_SEPARATOR raw pos = some q)
      (ht : parse_tag (slice raw pos q) = some t)
      (hw : memchrFrom FIELD_SEPARATOR raw (q + 1) = some w) :
      Reaches raw (w + 1)

/-- A contiguous index range `[lo, hi)` into the ambient offset table — the
functional image of a Rust subslice `&offsets[lo..hi]`. A `Message` views the
whole table; each `Group` and `GroupIter` views such a sub-range. -/
structure GRange where
  lo : Nat
  hi : Nat
deriving DecidableEq, Repr

/-- The entries a range views (the Rust subslice itself). -/
def grange (offs : List Entry) (r : GRange) : List Entry :=
  (offs.take r.hi).drop r.lo

/-- `Message::groups` / `Group::groups` (`message.rs` lines 148-172 and
`group.rs` lines 999-1022 — the two are textually identical): find the
count-tag entry in the viewed range; if absent the count is 0 and the
remaining range is empty, otherwise the count is the entry value parsed by
`parse_count` and the remaining range starts just after the entry. Returns
the initial `GroupIter` state `(count, remaining)`. -/
def Message.groups (buf : List Nat) (offs : List Entry) (r : GRange) (countTag : Tag) :
    Nat × GRange :=
  match findIdxAux (fun e => e.1 == countTag) (grange offs r) r.lo with
  | none => (0, ⟨r.hi, r.hi⟩)
  | some i =>
    let e := offs.getD i (0, 0, 0)
    (parse_count (slice buf e.2.1 e.2.2), ⟨i + 1, r.hi⟩)

/-- `GroupIter::next` (`group.rs` lines 1041-1066) iterated to the list of
all emitted instances. The first argument is `count - emitted`, which falls by
one per emission; iteration also stops when the remaining subslice is empty.
`stop` is the absolute index of the next delimiter-tag entry strictly after
the instance start (the `skip(1)`), or the end of the remaining range. -/
def GroupIter.run (offs : List Entry) (d : Tag) : Nat → GRange → List GRange
  | 0, _ => []
  | k + 1, r =>
    if (grange offs r).isEmpty then []
    else
      match findIdxAux (fun e => e.1 == d) ((grange offs r).drop 1) (r.lo + 1) with
      | none => ⟨r.lo, r.hi⟩ :: GroupIter.run offs d k ⟨r.hi, r.hi⟩
      | some i => ⟨r.lo, i⟩ :: GroupIter.run offs d k ⟨i, r.hi⟩

/-- Spec-side count for C5: the number of delimiter-bounded segments present
in a candidate region — one segment starting at the region start, plus one
for each delimiter-tag occurrence after the region's first entry. -/
def delimSegments (d : Tag) (l : List Entry) : Nat :=
  if l.isEmpty then 0 else 1 + (l.drop 1).countP (fun e => e.1 == d)

/-- One rendered field as the encoder writes it — decimal tag, `=`, raw value
bytes, SOH (`encoder.rs` lines 98-101). This is also the canonical wire chunk
of a decoded entry, used to phrase C2's canonical-form hypothesis. -/
def canonChunk (buf : List Nat) (e : Entry) : List Nat :=
  natDigits e.1 ++ 61 :: (slice buf e.2.1 e.2.2 ++ [1])

/-- The encoder's body buffer: every field except tags 8 (BeginString), 9
(BodyLength) and 10 (CheckSum), rendered in message order (`encoder.rs`
lines 90-102). -/
def encodeBody (buf : List Nat) (offs : List Entry) : List Nat :=
  ((offs.filter (fun e => !(e.1 == 8 || e.1 == 9 || e.1 == 10))).map (canonChunk buf)).flatten

/-- `Encoder::encode` (`encoder.rs` lines 82-139). `dbl` and `dck` are
`disable_auto_calculate_body_length` and `disable_auto_calculate_checksum`;
`Encoder::new()` sets both to `false`. The output vector is cleared first, so
the returned list is the whole output content. The Rust function's `Result`
return has no error path (`Ok(())` is the only exit), which the `.ok` here
makes literal. -/
def Encoder.encode (dbl dck : Bool) (buf : List Nat) (offs : List Entry) :
    Except FixError (List Nat) :=
  let version := match Message.find buf offs 8 with
    | some f => f.2
    | none => [70, 73, 88, 46, 52, 46, 52]
  let body := encodeBody buf offs
  let withVersion := 56 :: 61 :: (version ++ [1])
  let withLen := withVersion ++
    (if dbl then
      match Message.find buf offs 9 with
      | some f => 57 :: 61 :: (f.2 ++ [1])
      | none => []
    else 57 :: 61 :: (natDigits body.length ++ [1]))
  let withBody := withLen ++ body
  .ok (withBody ++
    (if dck then
      match Message.find buf offs 10 with
      | some f => 49 :: 48 :: 61 :: (f.2 ++ [1])
      | none => []
    else 49 :: 48 :: 61 :: (pad3 (compute_checksum withBody) ++ [1])))

/-- Witness buffer for C2: `8=FIX.4.2|9=5|35=D|10=181|` with SOH written `|`,
a canonical, correctly-validated wire message. -/
def c2raw : List Nat :=
  [56, 61, 70, 73, 88, 46, 52, 46, 50, 1, 57, 61, 53, 1, 51, 53, 61, 68, 1,
   49, 48, 61, 49, 56, 49, 1]

/-- The decode result of `c2raw`. -/
def c2rawOffs : List Entry := [(8, 2, 9), (9, 12, 13), (35, 17, 18), (10, 22, 25)]

/-- Counterexample buffer for C2 as stated: `8=A|9=6|035=D|10=126|`. The body
field's tag is rendered non-canonically (`035`), so the declared length 6 and
checksum 126 are both correct for the wire bytes, yet the encoder re-renders
the tag as `35` and recomputes length 5, producing different bytes. -/
def c2bad : List Nat :=
  [56, 61, 65, 1, 57, 61, 54, 1, 48, 51, 53, 61, 68, 1, 49, 48, 61, 49, 50, 54, 1]

/-- The decode result of `c2bad`. -/
def c2badOffs : List Entry := [(8, 2, 3), (9, 6, 7), (35, 12, 13), (10, 17, 20)]

/-- C6 counterexample buffer: `8=A|9=6|35=D|010=22|`. The checksum tag is
rendered non-canonically (`010`), so the code's `value-start − 3` lands one
byte inside the tag bytes: the declared length 6 matches the code's
computation but not the spec's region, which is 5 bytes. -/
def c6bad : List Nat :=
  [56, 61, 65, 1, 57, 61, 54, 1, 51, 53, 61, 68, 1, 48, 49, 48, 61, 50, 50, 1]

/-- The decode result of `c6bad`. -/
def c6badOffs : List Entry := [(8, 2, 3), (9, 6, 7), (35, 11, 12), (10, 17, 19)]

/-- C7 counterexample buffer: `010=48|`. The single field's tag 10 is
rendered non-canonically, so the code sums one byte of the tag itself
(`'0'` = 48) while the spec's sum over the bytes before the tag is 0. -/
def c7bad : List Nat := [48, 49, 48, 61, 52, 56, 1]

/-- The decode result of `c7bad`. -/
def c7badOffs : List Entry := [(10, 4, 6)]

/-- C3 counterexample buffer: `136=2|58=X|137=1|`. The candidate region after
the count tag starts with tag 58, not the delimiter 137, yet the iterator
emits an instance starting there. -/
def c3raw : List Nat :=
  [49, 51, 54, 61, 50, 1, 53, 56, 61, 88, 1, 49, 51, 55, 61, 49, 1]

/-- The decode result of `c3raw`. -/
def c3offs : List Entry := [(136, 4, 5), (58, 9, 10), (137, 15, 16)]

/-- Witness buffer for C8: `552=2|54=1|518=1|519=1|54=2|519=9|` — two parent
instances (delimiter 54), the first with one nested instance (count tag 518,
delimiter 519). -/
def c8raw : List Nat :=
  [53, 53, 50, 61, 50, 1, 53, 52, 61, 49, 1, 53, 49, 56, 61, 49, 1,
   53, 49, 57, 61, 49, 1, 53, 52, 61, 50, 1, 53, 49, 57, 61, 57, 1]

/-- The decode result of `c8raw`. -/
def c8offs : List Entry :=
  [(552, 4, 5), (54, 9, 10), (518, 15, 16), (519, 21, 22), (54, 26, 27), (519, 32, 33)]

/-- C1 counterexample raw bytes, built structurally: `n` copies of the chunk
`2=a\x01` followed by one final chunk `1=b\x01`. -/
def bigRawAux : Nat → List Nat
  | 0 => [49, 61, 98, 1]
  | n + 1 => 50 :: 61 :: 97 :: 1 :: bigRawAux n

/-- C1 counterexample buffer: 65536 fields `2=a` then one field `1=b` —
65537 fields in total, one more than a `u16` can index. -/
def bigRaw : List Nat := bigRawAux 65536

/-- The offset table `decode bigRaw` produces, described structurally:
`n` entries of tag 2 four bytes apart, then the tag-1 entry. -/
def bigOffsAux : Nat → Nat → List Entry
  | 0, pos => [(1, pos + 2, pos + 3)]
  | n + 1, pos => (2, pos + 2, pos + 3) :: bigOffsAux n (pos + 4)

/-- The decode result of `bigRaw`. -/
def bigOffs : List Entry := bigOffsAux 65536 0

/-- Characterization of a successful first-index search: the list splits at the
found element, nothing before it satisfies the predicate. -/
theorem findIdxAux_some_iff {α : Type} {p : α → Bool} {l : List α} {acc i : Nat} :
    findIdxAux p l acc = some i ↔
      ∃ l1 x l2, l = l1 ++ x :: l2 ∧ p x = true ∧ (∀ y ∈ l1, p y = false) ∧
        i = acc + l1.length := by
  induction l generalizing acc with
  | nil =>
    simp only [findIdxAux]
    constructor
    · intro h; exact absurd h (by simp)
    · rintro ⟨l1, x, l2, h, -⟩
      exact absurd h (by simp)
  | cons b rest ih =>
    simp only [findIdxAux]
    by_cases hb : p b
    · simp only [hb, if_pos]
      constructor
      · intro h
        refine ⟨[], b, rest, rfl, hb, by simp, ?_⟩
        cases h; simp
      · rintro ⟨l1, x, l2, hsplit, hx, hl1, hi⟩
        cases l1 with
        | nil => simp at hsplit; rw [hi]; simp
        | cons c l1t =>
          simp only [List.cons_append, List.cons.injEq] at hsplit
          have hc := hl1 c (by simp)
          rw [← hsplit.1] at hc
          rw [hb] at hc
          cases hc
    · simp only [hb, if_neg, Bool.false_eq_true, not_false_iff, if_false]
      rw [ih]
      constructor
      · rintro ⟨l1, x, l2, hsplit, hx, hl1, hi⟩
        refine ⟨b :: l1, x, l2, by simp [hsplit], hx, ?_, by simp [hi]; omega⟩
        intro y hy
        rcases List.mem_cons.mp hy with h | h
        · rw [h]; exact Bool.of_not_eq_true hb
        · exact hl1 y h
      · rintro ⟨l1, x, l2, hsplit, hx, hl1, hi⟩
        cases l1 with
        | nil =>
          simp at hsplit
          rw [hsplit.1] at hb
          exact absurd hx hb
        | cons c l1t =>
          simp only [List.cons_append, List.cons.injEq] at hsplit
          refine ⟨l1t, x, l2, hsplit.2, hx, fun y hy => hl1 y (by simp [hy]), ?_⟩
          simp at hi; omega

/-- A failed first-index search means no element satisfies the predicate. -/
theorem findIdxAux_none_iff {α : Type} {p : α → Bool} {l : List α} {acc : Nat} :
    findIdxAux p l acc = none ↔ ∀ x ∈ l, p x = false := by
  induction l generalizing acc with
  | nil => simp [findIdxAux]
  | cons b rest ih =>
    simp only [findIdxAux]
    by_cases hb : p b
    · simp [hb]
    · simp only [hb, if_neg, Bool.false_eq_true, not_false_iff, if_false]
      rw [ih]
      constructor
      · intro h x hx
        rcases List.mem_cons.mp hx with h1 | h1
        · rw [h1]; exact Bool.of_not_eq_true hb
        · exact h x h1
      · intro h x hx; exact h x (by simp [hx])

/-- Bounds of a successful search. -/
theorem findIdxAux_some_bounds {α : Type} {p : α → Bool} {l : List α} {acc i : Nat}
    (h : findIdxAux p l acc = some i) : acc ≤ i ∧ i < acc + l.length := by
  rcases findIdxAux_some_iff.mp h with ⟨l1, x, l2, hsplit, -, -, hi⟩
  subst hi
  constructor
  · omega
  · rw [hsplit]; simp

/-- Bounds of a successful `memchr`. -/
theorem memchrFrom_some_bounds {c : Nat} {buf : List Nat} {s i : Nat}
    (h : memchrFrom c buf s = some i) : s ≤ i ∧ i < buf.length := by
  have := findIdxAux_some_bounds h
  rcases this with ⟨h1, h2⟩
  refine ⟨h1, ?_⟩
  rw [List.length_drop] at h2
  have : s < buf.length := by
    by_contra hc
    push_neg at hc
    have : buf.drop s = [] := List.drop_eq_nil_of_le hc
    unfold memchrFrom at h
    rw [this] at h
    simp [findIdxAux] at h
  omega

/-- Fuel irrelevance for `decodeAux`: any fuel exceeding the number of
remaining bytes gives the same result, because every loop iteration advances
`pos` by at least two bytes. -/
theorem decodeAux_fuel {buf : List Nat} : ∀ {f1 : Nat} {pos f2 : Nat},
    buf.length - pos < f1 → buf.length - pos < f2 →
    decodeAux buf f1 pos = decodeAux buf f2 pos := by
  intro f1
  induction f1 with
  | zero => intro pos f2 h1 _; omega
  | succ g ih =>
    intro pos f2 h1 h2
    cases f2 with
    | zero => omega
    | succ g2 =>
      simp only [decodeAux]
      by_cases hp : pos < buf.length
      · simp only [hp, if_true]
        cases heq : memchrFrom FIELD_KEY_VALUE_SEPARATOR buf pos with
        | none => rfl
        | some eqPos =>
          dsimp only
          cases parse_tag (slice buf pos eqPos) with
          | none => rfl
          | some t =>
            dsimp only
            cases heq2 : memchrFrom FIELD_SEPARATOR buf (eqPos + 1) with
            | none => rfl
            | some sohPos =>
              dsimp only
              have hb1 := memchrFrom_some_bounds heq
              have hb2 := memchrFrom_some_bounds heq2
              rw [@ih (sohPos + 1) g2 (by omega) (by omega)]
      · simp only [hp, if_false]

theorem slice_eq_take {raw l : List Nat} {pos k : Nat} (h : raw.drop pos = l) :
    slice raw pos (pos + k) = l.take k := by
  unfold slice
  rw [h]
  congr 1
  omega

theorem drop_shift {raw : List Nat} {pos n : Nat} {l1 l2 : List Nat}
    (h : raw.drop pos = l1 ++ l2) (hn : n = l1.length) :
    raw.drop (pos + n) = l2 := by
  rw [← List.drop_drop, h, hn, List.drop_left]

/-- If the bytes from `pos` split at the first later occurrence of `c`, then
`memchr` finds exactly that occurrence. -/
theorem memchrFrom_construct {c : Nat} {raw l1 l2 : List Nat} {pos : Nat}
    (h : raw.drop pos = l1 ++ c :: l2) (hc : c ∉ l1) :
    memchrFrom c raw pos = some (pos + l1.length) := by
  unfold memchrFrom
  rw [h]
  apply findIdxAux_some_iff.mpr
  refine ⟨l1, c, l2, rfl, by simp, ?_, rfl⟩
  intro y hy
  simp only [beq_eq_false_iff_ne]
  exact fun he => hc (he ▸ hy)

/-- A successful `memchr` splits the bytes from `pos` at the first occurrence
of `c`. -/
theorem memchrFrom_destruct {c : Nat} {raw : List Nat} {pos i : Nat}
    (h : memchrFrom c raw pos = some i) :
    ∃ l1 l2, raw.drop pos = l1 ++ c :: l2 ∧ c ∉ l1 ∧ i = pos + l1.length := by
  rcases findIdxAux_some_iff.mp h with ⟨l1, x, l2, hsplit, hx, hl1, hi⟩
  have hxc : x = c := by simpa using hx
  subst hxc
  refine ⟨l1, l2, hsplit, ?_, hi⟩
  intro hcmem
  have := hl1 x hcmem
  simp at this

/-- Soundness half of the decode characterization: a `DecodesFrom` derivation
is accepted by the decoder loop. -/
theorem DecodesFrom.decodeAux_eq {raw : List Nat} {pos : Nat} {L : List Entry}
    (h : DecodesFrom raw pos L) : ∀ {fuel : Nat}, raw.length - pos < fuel →
    decodeAux raw fuel pos = .ok L := by
  induction h with
  | nil pos hp =>
    intro fuel hf
    cases fuel with
    | zero => omega
    | succ g => simp [decodeAux, show ¬ pos < raw.length from by omega]
  | cons pos tb v rest t L htb hv ht hdrop hrec ih =>
    intro fuel hf
    have hlen0 := congrArg List.length hdrop
    simp only [List.length_drop, List.length_append, List.length_cons] at hlen0
    have hpos : pos < raw.length := by omega
    cases fuel with
    | zero => omega
    | succ g =>
      have h61 : memchrFrom FIELD_KEY_VALUE_SEPARATOR raw pos = some (pos + tb.length) :=
        memchrFrom_construct hdrop htb
      have hslice : slice raw pos (pos + tb.length) = tb := by
        rw [slice_eq_take hdrop, List.take_left]
      have hdrop2 : raw.drop (pos + tb.length + 1) = v ++ 1 :: rest := by
        have h' : raw.drop pos = (tb ++ [61]) ++ (v ++ 1 :: rest) := by
          rw [hdrop]; simp
        have h2 := drop_shift h' (show tb.length + 1 = (tb ++ [61]).length by simp)
        rw [← Nat.add_assoc] at h2
        exact h2
      have hsoh : memchrFrom FIELD_SEPARATOR raw (pos + tb.length + 1) =
          some (pos + tb.length + 1 + v.length) :=
        memchrFrom_construct hdrop2 hv
      simp only [decodeAux, hpos, if_true, h61, hslice, ht, hsoh, @ih g (by omega)]

/-- Completeness half: a successful decoder run yields a `DecodesFrom`
derivation. -/
theorem decodeAux_ok_decodesFrom {buf : List Nat} : ∀ {fuel pos : Nat} {L : List Entry},
    decodeAux buf fuel pos = .ok L → DecodesFrom buf pos L := by
  intro fuel
  induction fuel with
  | zero => intro pos L h; simp [decodeAux] at h
  | succ g ih =>
    intro pos L h
    simp only [decodeAux] at h
    by_cases hp : pos < buf.length
    · rw [if_pos hp] at h
      cases heq : memchrFrom FIELD_KEY_VALUE_SEPARATOR buf pos with
      | none => rw [heq] at h; simp at h
      | some eqPos =>
        rw [heq] at h
        dsimp only at h
        cases hpt : parse_tag (slice buf pos eqPos) with
        | none => rw [hpt] at h; simp at h
        | some t =>
          rw [hpt] at h
          dsimp only at h
          cases heq2 : memchrFrom FIELD_SEPARATOR buf (eqPos + 1) with
          | none => rw [heq2] at h; simp at h
          | some sohPos =>
            rw [heq2] at h
            dsimp only at h
            cases hrec : decodeAux buf g (sohPos + 1) with
            | error e => rw [hrec] at h; simp at h
            | ok rest =>
              rw [hrec] at h
              dsimp only at h
              have hL : L = (t, eqPos + 1, sohPos) :: rest := by
                cases h; rfl
              subst hL
              rcases memchrFrom_destruct heq with ⟨l1, l2, hsplit, h61, hi⟩
              rcases memchrFrom_destruct heq2 with ⟨m1, m2, hsplit2, h1m, hi2⟩
              simp only [FIELD_KEY_VALUE_SEPARATOR] at hsplit h61
              simp only [FIELD_SEPARATOR] at hsplit2 h1m
              subst hi
              have hd2 : buf.drop (pos + l1.length + 1) = l2 := by
                have h' : buf.drop pos = (l1 ++ [61]) ++ l2 := by
                  rw [hsplit]; simp
                have h2 := drop_shift h' (show l1.length + 1 = (l1 ++ [61]).length by simp)
                rw [← Nat.add_assoc] at h2
                exact h2
              have hl2 : l2 = m1 ++ 1 :: m2 := hd2.symm.trans hsplit2
              have hfull : buf.drop pos = l1 ++ 61 :: (m1 ++ 1 :: m2) := by
                rw [hsplit, hl2]
              have htag : parse_tag l1 = some t := by
                have hs : slice buf pos (pos + l1.length) = l1 := by
                  rw [slice_eq_take hsplit, List.take_left]
                rw [hs] at hpt
                exact hpt
              subst hi2
              exact DecodesFrom.cons pos l1 m1 m2 t rest h61 h1m htag hfull (ih hrec)
    · rw [if_neg hp] at h
      have hL : L = [] := by cases h; rfl
      subst hL
      exact DecodesFrom.nil pos (by omega)

/-- Entry bounds extracted from a decode derivation: every value span lies
inside the buffer and starts strictly after its field start. -/
theorem DecodesFrom.bounds {raw : List Nat} {pos : Nat} {L : List Entry}
    (h : DecodesFrom raw pos L) :
    ∀ e ∈ L, pos < e.2.1 ∧ e.2.1 ≤ e.2.2 ∧ e.2.2 < raw.length := by
  induction h with
  | nil pos hp => intro e he; exact absurd he (by simp)
  | cons pos tb v rest t L htb hv ht hdrop hrec ih =>
    intro e he
    have hlen0 := congrArg List.length hdrop
    simp only [List.length_drop, List.length_append, List.length_cons] at hlen0
    rcases List.mem_cons.mp he with h1 | h1
    · subst h1
      refine ⟨?_, ?_, ?_⟩ <;> simp only <;> omega
    · rcases ih e h1 with ⟨a, b, c⟩
      exact ⟨by omega, b, c⟩

theorem indexPairsAux_append {A B : List Entry} : ∀ {i : Nat},
    indexPairsAux (A ++ B) i = indexPairsAux A i ++ indexPairsAux B (i + A.length) := by
  induction A with
  | nil => intro i; simp [indexPairsAux]
  | cons e rest ih =>
    intro i
    show (e.1, i % 65536) :: indexPairsAux (rest ++ B) (i + 1) = _
    rw [@ih (i + 1)]
    simp only [indexPairsAux, List.cons_append, List.length_cons]
    rw [show i + (rest.length + 1) = i + 1 + rest.length from by omega]

theorem mem_indexPairsAux {l : List Entry} : ∀ {i : Nat} {p : Tag × Nat},
    p ∈ indexPairsAux l i ↔ ∃ j e, l[j]? = some e ∧ p = (e.1, (i + j) % 65536) := by
  induction l with
  | nil => intro i p; simp [indexPairsAux]
  | cons e rest ih =>
    intro i p
    simp only [indexPairsAux, List.mem_cons, ih]
    constructor
    · rintro (h | ⟨j, e', hj, hp⟩)
      · exact ⟨0, e, by simp, by simpa using h⟩
      · exact ⟨j + 1, e', by simpa using hj, by rw [hp]; congr 1; omega⟩
    · rintro ⟨j, e', hj, hp⟩
      cases j with
      | zero =>
        left
        simp at hj
        rw [hp, hj]
        simp
      | succ j' =>
        right
        exact ⟨j', e', by simpa using hj, by rw [hp]; congr 1; omega⟩

theorem sortedIndex_perm (offs : List Entry) :
    (sortedIndex offs).Perm (indexPairsAux offs 0) :=
  List.perm_insertionSort tagLe (indexPairsAux offs 0)

theorem sortedIndex_sorted (offs : List Entry) :
    List.Sorted tagLe (sortedIndex offs) :=
  List.sorted_insertionSort tagLe (indexPairsAux offs 0)

theorem dropWhile_head_false {α : Type} {p : α → Bool} {l : List α} {q : α} {r : List α}
    (h : l.dropWhile p = q :: r) : p q = false := by
  induction l with
  | nil => simp [List.dropWhile] at h
  | cons a as ih =>
    by_cases ha : p a
    · rw [List.dropWhile_cons_of_pos ha] at h
      exact ih h
    · rw [List.dropWhile_cons_of_neg ha] at h
      cases h
      exact Bool.of_not_eq_true ha

/-- If the offset table has exactly one entry with tag `t`, at a position that
fits in a `u16`, then `Message::find` returns that entry's field. -/
theorem Message.find_unique {buf : List Nat} {offs : List Entry} {i0 : Nat} {t : Tag}
    {s e : Nat} (hget : offs[i0]? = some (t, s, e)) (hsmall : i0 < 65536)
    (huniq : ∀ j e', offs[j]? = some e' → e'.1 = t → j = i0) :
    Message.find buf offs t = some (t, slice buf s e) := by
  have hperm := sortedIndex_perm offs
  have hsort := sortedIndex_sorted offs
  have hmem : (t, i0) ∈ sortedIndex offs := by
    rw [hperm.mem_iff, mem_indexPairsAux]
    exact ⟨i0, (t, s, e), hget, by simp [Nat.mod_eq_of_lt hsmall]⟩
  have key : ∀ p ∈ sortedIndex offs, p.1 = t → p = (t, i0) := by
    intro p hp hpt
    rw [hperm.mem_iff, mem_indexPairsAux] at hp
    rcases hp with ⟨j, e', hj, hpe⟩
    have hjt : e'.1 = t := by rw [hpe] at hpt; exact hpt
    have hji := huniq j e' hj hjt
    rw [hpe, hjt, hji]
    have hmod : (0 + i0) % 65536 = i0 := by omega
    rw [hmod]
  set S := sortedIndex offs with hS
  set pred := fun p : Tag × Nat => decide (p.1 < t) with hpred
  have hsplitS : S.takeWhile pred ++ S.dropWhile pred = S := List.takeWhile_append_dropWhile pred S
  have hnotin : (t, i0) ∉ S.takeWhile pred := by
    intro hmemTW
    have := List.mem_takeWhile_imp hmemTW
    simp [hpred] at this
  have hinDW : (t, i0) ∈ S.dropWhile pred := by
    have := hmem
    rw [← hsplitS, List.mem_append] at this
    rcases this with h | h
    · exact absurd h hnotin
    · exact h
  cases hDW : S.dropWhile pred with
  | nil => rw [hDW] at hinDW; simp at hinDW
  | cons q r =>
    have hq : pred q = false := dropWhile_head_false hDW
    have hqt : t ≤ q.1 := by
      simp [hpred] at hq
      exact hq
    have hqmem : q ∈ S := by
      rw [← hsplitS, hDW]
      simp
    have hsorted2 : List.Sorted tagLe (q :: r) := by
      have := hsort
      rw [← hsplitS, hDW] at this
      exact (List.pairwise_append.mp this).2.1
    have hqet : q.1 = t := by
      rw [hDW] at hinDW
      rcases List.mem_cons.mp hinDW with h | h
      · rw [← h]
      · have hrel : q.1 ≤ t := by simpa [tagLe] using List.rel_of_sorted_cons hsorted2 _ h
        exact Nat.le_antisymm hrel hqt
    have hqeq : q = (t, i0) := key q hqmem hqet
    unfold Message.find
    dsimp only
    rw [← hS, ← hpred]
    have hidx : S[(S.takeWhile pred).length]? = some q := by
      have h1 : (S.takeWhile pred ++ S.dropWhile pred)[(S.takeWhile pred).length]? = some q := by
        rw [List.getElem?_append_right (Nat.le_refl _), hDW]
        simp
      rw [hsplitS] at h1
      exact h1
    rw [hidx]
    dsimp only
    rw [hqeq]
    simp [List.getD_eq_getElem?_getD, hget]

theorem compute_checksum_aux {l : List Nat} : ∀ {acc : Nat}, acc < 256 →
    l.foldl (fun a b => (a + b) % 256) acc = (acc + l.sum) % 256 := by
  induction l with
  | nil => intro acc h; simp [Nat.mod_eq_of_lt h]
  | cons b rest ih =>
    intro acc h
    simp only [List.foldl_cons, List.sum_cons]
    rw [ih (Nat.mod_lt _ (by omega))]
    rw [Nat.mod_add_mod]
    congr 1
    omega

/-- `compute_checksum` is the modulo-256 sum of the bytes. -/
theorem compute_checksum_eq_sum (l : List Nat) : compute_checksum l = l.sum % 256 := by
  unfold compute_checksum
  rw [compute_checksum_aux (by omega), Nat.zero_add]

/-- An error produced at a reachable position is the error of the whole
decode call. -/
theorem Reaches.error_propagates {raw : List Nat} {pos : Nat} (h : Reaches raw pos)
    {err : FixError} (herr : decodeAux raw (raw.length + 1) pos = .error err) :
    decode raw = .error err := by
  induction h with
  | zero => exact herr
  | step pos q t w hre hq ht hw ih =>
    apply ih
    have hbq := memchrFrom_some_bounds hq
    have hbw := memchrFrom_some_bounds hw
    have hposlt : pos < raw.length := by omega
    simp only [decodeAux, hposlt, if_true, hq, ht, hw]
    rw [@decodeAux_fuel raw raw.length (w + 1) (raw.length + 1) (by omega) (by omega), herr]

theorem take_drop_getElem {offs : List Entry} {a hi j : Nat} (h1 : a ≤ j) (h2 : j < hi) :
    ((offs.take hi).drop a)[j - a]? = offs[j]? := by
  rw [List.getElem?_drop]
  rw [show a + (j - a) = j from by omega]
  rw [List.getElem?_take, if_pos h2]

theorem grange_length_le {offs : List Entry} {r : GRange} :
    (grange offs r).length ≤ r.hi - r.lo := by
  unfold grange
  rw [List.length_drop]
  have := List.length_take_le r.hi offs
  omega

theorem grange_drop {offs : List Entry} {r : GRange} {n : Nat} :
    (grange offs r).drop n = (offs.take r.hi).drop (r.lo + n) := by
  unfold grange
  rw [List.drop_drop]

theorem grange_shift {offs : List Entry} {lo hi s : Nat} (h : lo ≤ s) :
    grange offs ⟨s, hi⟩ = (grange offs ⟨lo, hi⟩).drop (s - lo) := by
  rw [grange_drop]
  unfold grange
  congr 1
  dsimp only
  omega

theorem mem_of_getElem? {α : Type} {l : List α} {n : Nat} {a : α} (h : l[n]? = some a) :
    a ∈ l := by
  rcases List.getElem?_eq_some_iff.mp h with ⟨hlt, hx⟩
  exact hx ▸ List.getElem_mem hlt

/-- When the `skip(1)` delimiter search of `GroupIter::next` fails, no entry
strictly inside the remaining range carries the delimiter tag. -/
theorem iterStop_none {offs : List Entry} {r : GRange} {d : Tag}
    (hnone : findIdxAux (fun e => e.1 == d) ((grange offs r).drop 1) (r.lo + 1) = none) :
    ∀ j x, r.lo < j → j < r.hi → offs[j]? = some x → ¬ x.1 = d := by
  intro j x hj1 hj2 hget hxd
  have hall := findIdxAux_none_iff.mp hnone
  have hrel : ((grange offs r).drop 1)[j - (r.lo + 1)]? = offs[j]? := by
    rw [grange_drop]
    exact take_drop_getElem (by omega) hj2
  rw [hget] at hrel
  have hx := hall x (mem_of_getElem? hrel)
  simp [hxd] at hx

/-- When the `skip(1)` delimiter search of `GroupIter::next` succeeds at
absolute index `i`: `i` lies strictly inside the remaining range, the entry
there carries the delimiter tag, and no entry strictly between the range start
and `i` does. -/
theorem iterStop_some {offs : List Entry} {r : GRange} {d : Tag} {i : Nat}
    (hsome : findIdxAux (fun e => e.1 == d) ((grange offs r).drop 1) (r.lo + 1) = some i) :
    r.lo + 1 ≤ i ∧ i < r.hi ∧
    (∃ x, offs[i]? = some x ∧ x.1 = d) ∧
    (∀ j x, r.lo < j → j < i → offs[j]? = some x → ¬ x.1 = d) := by
  rcases findIdxAux_some_iff.mp hsome with ⟨l1, x, l2, hsplit, hx, hl1, hi⟩
  have hlensplit := congrArg List.length hsplit
  simp only [List.length_drop, List.length_append, List.length_cons] at hlensplit
  have hgl : (grange offs r).length ≤ r.hi - r.lo := grange_length_le
  have hihi : i < r.hi := by omega
  have hxd : x.1 = d := by simpa using hx
  refine ⟨by omega, hihi, ?_, ?_⟩
  · have hrel : ((grange offs r).drop 1)[i - (r.lo + 1)]? = offs[i]? := by
      rw [grange_drop]
      exact take_drop_getElem (by omega) hihi
    rw [hsplit, show i - (r.lo + 1) = l1.length from by omega,
      List.getElem?_append_right (Nat.le_refl _)] at hrel
    simp only [Nat.sub_self, List.getElem?_cons_zero] at hrel
    exact ⟨x, hrel.symm, hxd⟩
  · intro j y hj1 hj2 hget hyd
    have hrel : ((grange offs r).drop 1)[j - (r.lo + 1)]? = offs[j]? := by
      rw [grange_drop]
      exact take_drop_getElem (by omega) (by omega)
    rw [hsplit, List.getElem?_append_left (by omega)] at hrel
    rw [hget] at hrel
    have := hl1 y (mem_of_getElem? hrel)
    simp [hyd] at this

/-- If the viewed subslice is empty the iterator yields nothing, whatever the
remaining count. -/
theorem GroupIter.run_nil {offs : List Entry} {d : Tag} {k : Nat} {r : GRange}
    (h : (grange offs r).isEmpty = true) : GroupIter.run offs d k r = [] := by
  cases k with
  | zero => rfl
  | succ k => simp [GroupIter.run, h]

theorem grange_nonempty_lt {offs : List Entry} {r : GRange}
    (hne : (grange offs r).isEmpty = false) : r.lo < r.hi := by
  have hglen : (grange offs r).length ≠ 0 := by
    intro hz
    rw [List.length_eq_zero] at hz
    rw [hz] at hne
    simp at hne
  have := @grange_length_le offs r
  omega

/-- Every emitted instance is a nonempty sub-range of the remaining range. -/
theorem GroupIter.run_mem_bounds {offs : List Entry} {d : Tag} : ∀ {k : Nat} {r : GRange},
    ∀ inst ∈ GroupIter.run offs d k r, r.lo ≤ inst.lo ∧ inst.lo < inst.hi ∧ inst.hi ≤ r.hi := by
  intro k
  induction k with
  | zero => intro r inst h; simp [GroupIter.run] at h
  | succ g ih =>
    intro r inst hmem
    cases hne : (grange offs r).isEmpty with
    | true => rw [GroupIter.run_nil hne] at hmem; simp at hmem
    | false =>
      have hlolt : r.lo < r.hi := grange_nonempty_lt hne
      cases hfind : findIdxAux (fun e => e.1 == d) ((grange offs r).drop 1) (r.lo + 1) with
      | none =>
        simp only [GroupIter.run, hne, Bool.false_eq_true, if_false, hfind] at hmem
        rcases List.mem_cons.mp hmem with h | h
        · subst h; exact ⟨Nat.le_refl _, hlolt, Nat.le_refl _⟩
        · rcases ih _ h with ⟨a, b, c⟩
          dsimp only at a b c
          exact ⟨by omega, b, c⟩
      | some i =>
        simp only [GroupIter.run, hne, Bool.false_eq_true, if_false, hfind] at hmem
        rcases iterStop_some hfind with ⟨hi1, hi2, -, -⟩
        rcases List.mem_cons.mp hmem with h | h
        · subst h
          refine ⟨Nat.le_refl _, ?_, ?_⟩ <;> dsimp only <;> omega
        · rcases ih _ h with ⟨a, b, c⟩
          dsimp only at a b c
          exact ⟨by omega, b, c⟩

theorem grange_self_empty {offs : List Entry} {a : Nat} :
    grange offs ⟨a, a⟩ = [] := by
  unfold grange
  exact List.drop_eq_nil_of_le (List.length_take_le a offs)

/-- Instances from one iteration occupy pairwise disjoint, ordered index
ranges. -/
theorem GroupIter.run_pairwise {offs : List Entry} {d : Tag} : ∀ {k : Nat} {r : GRange},
    List.Pairwise (fun a b : GRange => a.hi ≤ b.lo) (GroupIter.run offs d k r) := by
  intro k
  induction k with
  | zero => intro r; simp [GroupIter.run]
  | succ g ih =>
    intro r
    cases hne : (grange offs r).isEmpty with
    | true => rw [GroupIter.run_nil hne]; exact List.Pairwise.nil
    | false =>
      cases hfind : findIdxAux (fun e => e.1 == d) ((grange offs r).drop 1) (r.lo + 1) with
      | none =>
        simp only [GroupIter.run, hne, Bool.false_eq_true, if_false, hfind]
        refine List.Pairwise.cons ?_ ih
        intro b hb
        rcases GroupIter.run_mem_bounds b hb with ⟨a1, -, -⟩
        dsimp only at a1 ⊢
        omega
      | some i =>
        simp only [GroupIter.run, hne, Bool.false_eq_true, if_false, hfind]
        refine List.Pairwise.cons ?_ ih
        intro b hb
        rcases GroupIter.run_mem_bounds b hb with ⟨a1, -, -⟩
        dsimp only at a1 ⊢
        omega

/-- The first emitted instance starts at the start of the remaining range. -/
theorem GroupIter.run_head {offs : List Entry} {d : Tag} {k : Nat} {r : GRange} {h : GRange}
    {t' : List GRange} (heq : GroupIter.run offs d k r = h :: t') : h.lo = r.lo := by
  cases k with
  | zero => simp [GroupIter.run] at heq
  | succ g =>
    cases hne : (grange offs r).isEmpty with
    | true => rw [GroupIter.run_nil hne] at heq; simp at heq
    | false =>
      cases hfind : findIdxAux (fun e => e.1 == d) ((grange offs r).drop 1) (r.lo + 1) with
      | none =>
        simp only [GroupIter.run, hne, Bool.false_eq_true, if_false, hfind] at heq
        injection heq with h1 h2
        rw [← h1]
      | some i =>
        simp only [GroupIter.run, hne, Bool.false_eq_true, if_false, hfind] at heq
        injection heq with h1 h2
        rw [← h1]

/-- Consecutive instances are adjacent, and every instance after the first
starts at an entry carrying the delimiter tag. -/
theorem GroupIter.run_succ {offs : List Entry} {d : Tag} : ∀ {k : Nat} {r : GRange} {i : Nat}
    {pe inst : GRange}, (GroupIter.run offs d k r)[i]? = some pe →
    (GroupIter.run offs d k r)[i + 1]? = some inst →
    pe.hi = inst.lo ∧ ∃ x, offs[inst.lo]? = some x ∧ x.1 = d := by
  intro k
  induction k with
  | zero => intro r i pe inst h1 h2; simp [GroupIter.run] at h1
  | succ g ih =>
    intro r i pe inst h1 h2
    cases hne : (grange offs r).isEmpty with
    | true => rw [GroupIter.run_nil hne] at h1; simp at h1
    | false =>
      cases hfind : findIdxAux (fun e => e.1 == d) ((grange offs r).drop 1) (r.lo + 1) with
      | none =>
        simp only [GroupIter.run, hne, Bool.false_eq_true, if_false, hfind] at h2
        rw [GroupIter.run_nil (by rw [grange_self_empty]; rfl)] at h2
        cases i with
        | zero => simp at h2
        | succ j => simp at h2
      | some i' =>
        simp only [GroupIter.run, hne, Bool.false_eq_true, if_false, hfind] at h1 h2
        cases i with
        | zero =>
          rw [List.getElem?_cons_zero] at h1
          have hpe : pe = ⟨r.lo, i'⟩ := by
            injection h1 with hh
            rw [← hh]
          rw [show (0 : Nat) + 1 = Nat.succ 0 from rfl, List.getElem?_cons_succ] at h2
          cases htail : GroupIter.run offs d g ⟨i', r.hi⟩ with
          | nil => rw [htail] at h2; simp at h2
          | cons a t'' =>
            rw [htail] at h2
            rw [List.getElem?_cons_zero] at h2
            have hinst : inst = a := by
              injection h2 with hh
              rw [← hh]
            have hlo : a.lo = i' := GroupIter.run_head htail
            rcases iterStop_some hfind with ⟨hi1, hi2, ⟨x, hx1, hx2⟩, -⟩
            subst hpe
            subst hinst
            rw [hlo]
            exact ⟨rfl, x, hx1, hx2⟩
        | succ j =>
          rw [List.getElem?_cons_succ] at h1
          rw [List.getElem?_cons_succ] at h2
          exact ih h1 h2

/-- Extent of each instance: no delimiter-tag entry strictly inside it, and it
ends either at the end of the remaining range or at a delimiter-tag entry. -/
theorem GroupIter.run_extent {offs : List Entry} {d : Tag} : ∀ {k : Nat} {r : GRange},
    ∀ inst ∈ GroupIter.run offs d k r,
      (∀ j x, inst.lo < j → j < inst.hi → offs[j]? = some x → ¬ x.1 = d) ∧
      (inst.hi = r.hi ∨ ∃ x, offs[inst.hi]? = some x ∧ x.1 = d) := by
  intro k
  induction k with
  | zero => intro r inst h; simp [GroupIter.run] at h
  | succ g ih =>
    intro r inst hmem
    cases hne : (grange offs r).isEmpty with
    | true => rw [GroupIter.run_nil hne] at hmem; simp at hmem
    | false =>
      cases hfind : findIdxAux (fun e => e.1 == d) ((grange offs r).drop 1) (r.lo + 1) with
      | none =>
        simp only [GroupIter.run, hne, Bool.false_eq_true, if_false, hfind] at hmem
        rcases List.mem_cons.mp hmem with h | h
        · subst h
          refine ⟨?_, Or.inl rfl⟩
          intro j x hj1 hj2 hget hxd
          exact iterStop_none hfind j x hj1 hj2 hget hxd
        · rcases ih inst h with ⟨he, hb⟩
          refine ⟨he, ?_⟩
          rcases hb with hb | hb
          · exact Or.inl hb
          · exact Or.inr hb
      | some i =>
        simp only [GroupIter.run, hne, Bool.false_eq_true, if_false, hfind] at hmem
        rcases iterStop_some hfind with ⟨hi1, hi2, hdel, hmin⟩
        rcases List.mem_cons.mp hmem with h | h
        · subst h
          refine ⟨?_, Or.inr ?_⟩
          · intro j x hj1 hj2 hget hxd
            exact hmin j x hj1 hj2 hget hxd
          · exact hdel
        · rcases ih inst h with ⟨he, hb⟩
          refine ⟨he, ?_⟩
          rcases hb with hb | hb
          · exact Or.inl hb
          · exact Or.inr hb

/-- C5 core: the number of emitted instances is the minimum of the remaining
count and the number of delimiter-bounded segments in the viewed range. -/
theorem GroupIter.run_length {offs : List Entry} {d : Tag} : ∀ {k : Nat} {r : GRange},
    (GroupIter.run offs d k r).length = min k (delimSegments d (grange offs r)) := by
  intro k
  induction k with
  | zero => intro r; simp [GroupIter.run]
  | succ g ih =>
    intro r
    cases hne : (grange offs r).isEmpty with
    | true =>
      rw [GroupIter.run_nil hne]
      simp [delimSegments, hne]
    | false =>
      cases hfind : findIdxAux (fun e => e.1 == d) ((grange offs r).drop 1) (r.lo + 1) with
      | none =>
        simp only [GroupIter.run, hne, Bool.false_eq_true, if_false, hfind, List.length_cons]
        rw [GroupIter.run_nil (by rw [grange_self_empty]; rfl)]
        have hseg : delimSegments d (grange offs r) = 1 := by
          unfold delimSegments
          rw [hne]
          simp only [Bool.false_eq_true, if_false]
          have hz : ((grange offs r).drop 1).countP (fun e => e.1 == d) = 0 :=
            List.countP_eq_zero.mpr (fun a ha => by rw [findIdxAux_none_iff.mp hfind a ha]; simp)
          omega
        rw [hseg]
        simp
      | some i =>
        simp only [GroupIter.run, hne, Bool.false_eq_true, if_false, hfind, List.length_cons]
        rw [@ih ⟨i, r.hi⟩]
        rcases findIdxAux_some_iff.mp hfind with ⟨l1, x, l2, hsplit, hx, hl1, hieq⟩
        rcases iterStop_some hfind with ⟨hi1, hi2, -, -⟩
        have hg2 : grange offs ⟨i, r.hi⟩ = x :: l2 := by
          have hsh := @grange_shift offs r.lo r.hi i (by omega)
          rw [hsh]
          have hr : grange offs ⟨r.lo, r.hi⟩ = grange offs r := rfl
          rw [hr]
          have hdd : (grange offs r).drop (i - r.lo) = ((grange offs r).drop 1).drop l1.length := by
            rw [List.drop_drop]
            congr 1
            omega
          rw [hdd, hsplit, List.drop_left]
        have hl1z : l1.countP (fun e => e.1 == d) = 0 :=
          List.countP_eq_zero.mpr (fun a ha => by rw [hl1 a ha]; simp)
        have hsegr : delimSegments d (grange offs r) =
            2 + l2.countP (fun e => e.1 == d) := by
          unfold delimSegments
          rw [hne]
          simp only [Bool.false_eq_true, if_false]
          rw [hsplit, List.countP_append, hl1z, List.countP_cons_of_pos (fun e => e.1 == d) l2 hx]
          omega
        have hseg2 : delimSegments d (grange offs ⟨i, r.hi⟩) =
            1 + l2.countP (fun e => e.1 == d) := by
          rw [hg2]
          unfold delimSegments
          simp [List.countP]
        rw [hsegr, hseg2]
        omega

theorem natDigitsAux_digits : ∀ {fuel n : Nat}, ∀ b ∈ natDigitsAux fuel n,
    48 ≤ b ∧ b ≤ 57 := by
  intro fuel
  induction fuel with
  | zero => intro n b hb; simp [natDigitsAux] at hb
  | succ g ih =>
    intro n b hb
    simp only [natDigitsAux] at hb
    by_cases hn : n < 10
    · rw [if_pos hn] at hb
      simp at hb
      omega
    · rw [if_neg hn] at hb
      rcases List.mem_append.mp hb with h | h
      · exact ih b h
      · simp at h
        have := Nat.mod_lt n (show 0 < 10 from by omega)
        omega

/-- Every byte of a canonical decimal rendering is an ASCII digit. -/
theorem natDigits_digits {n : Nat} : ∀ b ∈ natDigits n, 48 ≤ b ∧ b ≤ 57 :=
  fun b hb => natDigitsAux_digits b hb

theorem natDigits_not_eq {n : Nat} : (61 : Nat) ∉ natDigits n := by
  intro h
  have := natDigits_digits 61 h
  omega

/-- Splitting a list at the first occurrence of `c` is unique. -/
theorem append_cons_eq_of_not_mem {α : Type} {c : α} : ∀ {a b y z : List α},
    a ++ c :: y = b ++ c :: z → c ∉ a → c ∉ b → a = b ∧ y = z := by
  intro a
  induction a with
  | nil =>
    intro b y z h ha hb
    cases b with
    | nil => simp at h; exact ⟨rfl, h⟩
    | cons b0 bt =>
      simp at h
      exact absurd (h.1 ▸ List.mem_cons_self b0 bt) hb
  | cons a0 at' ih =>
    intro b y z h ha hb
    cases b with
    | nil =>
      simp at h
      exact absurd (h.1 ▸ List.mem_cons_self a0 at') ha
    | cons b0 bt =>
      simp only [List.cons_append, List.cons.injEq] at h
      rcases ih h.2 (fun hc => ha (List.mem_cons_of_mem a0 hc))
        (fun hc => hb (List.mem_cons_of_mem b0 hc)) with ⟨h1, h2⟩
      exact ⟨by rw [h.1, h1], h2⟩

theorem slice_of_drop {raw v tail : List Nat} {s : Nat} (h : raw.drop s = v ++ tail) :
    slice raw s (s + v.length) = v := by
  rw [slice_eq_take h, List.take_left]

/-- Canonical-form analysis of one decoded field: if the bytes from `pos` are
the canonical chunks of the decoded entries, the first entry's tag bytes are
exactly the canonical digits of its tag, and positions advance by the chunk
length. -/
theorem decodesFrom_canon_head {raw : List Nat} {pos : Nat} {t : Tag} {s e : Nat}
    {L : List Entry} (h : DecodesFrom raw pos ((t, s, e) :: L))
    (hjoin : raw.drop pos = canonChunk raw (t, s, e) ++ (L.map (canonChunk raw)).flatten) :
    s = pos + (natDigits t).length + 1 ∧
    e + 1 = pos + (canonChunk raw (t, s, e)).length ∧
    DecodesFrom raw (e + 1) L ∧
    raw.drop (e + 1) = (L.map (canonChunk raw)).flatten := by
  cases h with
  | cons _ tb v rest _ _ htb hv ht hdrop hrec =>
    have hdropv : raw.drop (pos + tb.length + 1) = v ++ 1 :: rest := by
      have h' : raw.drop pos = (tb ++ [61]) ++ (v ++ 1 :: rest) := by
        rw [hdrop]; simp
      have h2 := drop_shift h' (show tb.length + 1 = (tb ++ [61]).length by simp)
      rw [← Nat.add_assoc] at h2
      exact h2
    have hslicev : slice raw (pos + tb.length + 1) (pos + tb.length + 1 + v.length) = v :=
      slice_of_drop hdropv
    rw [canonChunk] at hjoin
    dsimp only at hjoin
    rw [hslicev] at hjoin
    have hjoin' : raw.drop pos = natDigits t ++ 61 :: (v ++ 1 :: (L.map (canonChunk raw)).flatten) := by
      rw [hjoin]; simp
    rw [hdrop] at hjoin'
    rcases append_cons_eq_of_not_mem hjoin' htb natDigits_not_eq with ⟨htb_eq, hrest_eq⟩
    have hrest2 : rest = (L.map (canonChunk raw)).flatten := by
      have := List.append_cancel_left hrest_eq
      injection this
    have he1 : pos + tb.length + 1 + v.length + 1 =
        pos + (canonChunk raw (t, pos + tb.length + 1, pos + tb.length + 1 + v.length)).length := by
      rw [canonChunk]
      dsimp only
      rw [hslicev, htb_eq]
      simp [List.length_append]
      omega
    refine ⟨by rw [htb_eq], ?_, ?_, ?_⟩
    · exact he1
    · exact hrec
    · have h3 : raw.drop (pos + tb.length + 1 + (v.length + 1)) = rest :=
        @drop_shift raw (pos + tb.length + 1) (v.length + 1) (v ++ [1]) rest
          (by rw [hdropv]; simp) (by simp)
      rw [show pos + tb.length + 1 + v.length + 1 =
        pos + tb.length + 1 + (v.length + 1) from by omega, h3]
      exact hrest2

/-- Positions of canonical-form decoded fields: the value span of the `i`-th
entry sits exactly after the chunks of the preceding entries and its own tag
digits. -/
theorem decodesFrom_canon_chain {raw : List Nat} : ∀ {L : List Entry} {pos : Nat},
    DecodesFrom raw pos L →
    raw.drop pos = (L.map (canonChunk raw)).flatten →
    ∀ {i : Nat} {t : Tag} {s e : Nat}, L[i]? = some (t, s, e) →
      s = pos + ((L.take i).map (canonChunk raw)).flatten.length + (natDigits t).length + 1 ∧
      e + 1 = pos + ((L.take (i + 1)).map (canonChunk raw)).flatten.length := by
  intro L
  induction L with
  | nil => intro pos h hj i t s e hget; simp at hget
  | cons hd tl ih =>
    intro pos h hj i t s e hget
    obtain ⟨t0, s0, e0⟩ := hd
    have hjoin' : raw.drop pos =
        canonChunk raw (t0, s0, e0) ++ (tl.map (canonChunk raw)).flatten := by
      rw [hj]; simp
    rcases decodesFrom_canon_head h hjoin' with ⟨hs0, he0, hrec, hdrop2⟩
    cases i with
    | zero =>
      rw [List.getElem?_cons_zero] at hget
      injection hget with h1
      injection h1 with ht1 h2
      injection h2 with hs1 he1
      subst ht1
      subst hs1
      subst he1
      refine ⟨by simpa using hs0, ?_⟩
      simp only [List.take_succ_cons, List.take_zero, List.map_cons, List.map_nil,
        List.flatten_cons, List.flatten_nil, List.append_nil]
      exact he0
    | succ j =>
      rw [List.getElem?_cons_succ] at hget
      rcases ih hrec hdrop2 hget with ⟨ha, hb⟩
      have hchunk : e0 + 1 = pos + (canonChunk raw (t0, s0, e0)).length := he0
      constructor
      · rw [ha]
        simp only [List.take_succ_cons, List.map_cons, List.flatten_cons, List.length_append]
        omega
      · rw [hb]
        simp only [List.take_succ_cons, List.map_cons, List.flatten_cons, List.length_append]
        omega

theorem getElem_last_of_shape {a b x : Entry} {mid : List Entry} :
    (a :: b :: (mid ++ [x]))[mid.length + 2]? = some x := by
  rw [show mid.length + 2 = (mid.length + 1) + 1 from rfl, List.getElem?_cons_succ,
    List.getElem?_cons_succ, List.getElem?_append_right (Nat.le_refl _)]
  simp

theorem Encoder.encode_roundtrip (raw : List Nat) (offs : List Entry)
    (f0s f0e f1s f1e ls le : Nat) (mid : List Entry)
    (hdec : decode raw = .ok offs)
    (hshape : offs = (8, f0s, f0e) :: (9, f1s, f1e) :: (mid ++ [(10, ls, le)]))
    (hmid : ∀ x ∈ mid, x.1 ≠ 8 ∧ x.1 ≠ 9 ∧ x.1 ≠ 10)
    (hjoin : raw = (offs.map (canonChunk raw)).flatten)
    (hlen : slice raw f1s f1e = natDigits (ls - 3 - (f1e + 1)))
    (hck : slice raw ls le = pad3 ((raw.take (ls - 3)).sum % 256))
    (hvbl : Message.validate_body_length raw offs = .ok ())
    (hvck : Message.validate_checksum raw offs = .ok ()) :
    Encoder.encode false false raw offs = .ok raw := by
  have hDF : DecodesFrom raw 0 offs := decodeAux_ok_decodesFrom hdec
  have hjoin0 : raw.drop 0 = (offs.map (canonChunk raw)).flatten := by
    rw [List.drop_zero]; exact hjoin
  have hget1 : offs[1]? = some (9, f1s, f1e) := by
    rw [hshape, show (1 : Nat) = 0 + 1 from rfl, List.getElem?_cons_succ]
    exact List.getElem?_cons_zero
  have hgetL : offs[mid.length + 2]? = some (10, ls, le) := by
    rw [hshape]; exact getElem_last_of_shape
  rcases decodesFrom_canon_chain hDF hjoin0 hget1 with ⟨-, hf1e⟩
  rcases decodesFrom_canon_chain hDF hjoin0 hgetL with ⟨hls, -⟩
  set C0 : List Nat := canonChunk raw (8, f0s, f0e) with hC0
  set C1 : List Nat := canonChunk raw (9, f1s, f1e) with hC1
  set CL : List Nat := canonChunk raw (10, ls, le) with hCL
  set B : List Nat := (mid.map (canonChunk raw)).flatten with hB
  have htake2 : ((offs.take 2).map (canonChunk raw)).flatten = C0 ++ C1 := by
    rw [hshape]
    simp [hC0, hC1]
  have htakeL : ((offs.take (mid.length + 2)).map (canonChunk raw)).flatten =
      C0 ++ (C1 ++ B) := by
    rw [hshape, show mid.length + 2 = (mid.length + 1) + 1 from rfl]
    simp only [List.take_succ_cons]
    rw [List.take_left]
    simp [hC0, hC1, hB]
  have hf1e' : f1e + 1 = (C0 ++ C1).length := by
    rw [htake2] at hf1e
    omega
  have hls' : ls = (C0 ++ (C1 ++ B)).length + 3 := by
    rw [htakeL] at hls
    have h10 : (natDigits 10).length = 2 := rfl
    omega
  have hd : ls - 3 - (f1e + 1) = B.length := by
    simp only [List.length_append] at hf1e' hls'
    omega
  have hfind8 : Message.find raw offs 8 = some (8, slice raw f0s f0e) := by
    refine @Message.find_unique raw offs 0 8 f0s f0e ?_ ?_ ?_
    · rw [hshape]
      exact List.getElem?_cons_zero
    · omega
    · intro j e' hj h8'
      rw [hshape] at hj
      match j, hj with
      | 0, hj => rfl
      | 1, hj =>
        rw [show (1 : Nat) = 0 + 1 from rfl, List.getElem?_cons_succ,
          List.getElem?_cons_zero] at hj
        injection hj with hj'
        rw [← hj'] at h8'
        simp at h8'
      | (j' + 2), hj =>
        rw [show j' + 2 = (j' + 1) + 1 from rfl, List.getElem?_cons_succ,
          List.getElem?_cons_succ] at hj
        have hmem := mem_of_getElem? hj
        rcases List.mem_append.mp hmem with hm | hm
        · exact absurd h8' (hmid e' hm).1
        · simp at hm
          rw [hm] at h8'
          simp at h8'
  have hbodyeq : encodeBody raw offs = B := by
    unfold encodeBody
    rw [hshape]
    have hfmid : mid.filter (fun e => !(e.1 == 8 || e.1 == 9 || e.1 == 10)) = mid := by
      apply List.filter_eq_self.mpr
      intro x hx
      rcases hmid x hx with ⟨a1, a2, a3⟩
      simp [a1, a2, a3]
    rw [List.filter_cons, List.filter_cons, List.filter_append, List.filter_cons,
      List.filter_nil, hfmid]
    simp [hB]
  have hraw : raw = C0 ++ (C1 ++ (B ++ CL)) := by
    conv_lhs => rw [hjoin]
    rw [hshape]
    simp [hC0, hC1, hB, hCL]
  have htakepre : raw.take (ls - 3) = C0 ++ (C1 ++ B) := by
    have hassoc : raw = (C0 ++ (C1 ++ B)) ++ CL := by
      rw [hraw]; simp
    have hlen3 : ls - 3 = (C0 ++ (C1 ++ B)).length := by
      simp only [List.length_append] at hls' ⊢
      omega
    rw [hlen3]
    conv_lhs => rw [hassoc]
    exact List.take_left _ _
  simp only [Encoder.encode, hfind8, hbodyeq, Bool.false_eq_true, if_false]
  have hC0eq : C0 = 56 :: 61 :: (slice raw f0s f0e ++ [1]) := by
    rw [hC0]; rfl
  have hC1eq : C1 = 57 :: 61 :: (natDigits B.length ++ [1]) := by
    rw [hC1]
    unfold canonChunk
    dsimp only
    rw [hlen, hd]
    rfl
  have hCLeq : CL = 49 :: 48 :: 61 :: (pad3 ((raw.take (ls - 3)).sum % 256) ++ [1]) := by
    rw [hCL]
    unfold canonChunk
    dsimp only
    rw [hck]
    rfl
  rw [← hC0eq, ← hC1eq, List.append_assoc C0 C1 B]
  have hcks2 : compute_checksum (C0 ++ (C1 ++ B)) = (raw.take (ls - 3)).sum % 256 := by
    rw [← htakepre, compute_checksum_eq_sum]
  rw [hcks2, ← hCLeq]
  conv_rhs => rw [hraw]
  simp [List.append_assoc]

/-- C2 counterexample: a buffer that decodes successfully, is well-formed
(version first, length second, checksum last) with numerically valid length
and checksum fields, yet a default-configured encoder does not reproduce its
bytes. -/
theorem Encoder.encode_roundtrip_cex :
    decode c2bad = .ok c2badOffs ∧
    (c2badOffs.getD 0 (0, 0, 0)).1 = 8 ∧
    (c2badOffs.getD 1 (0, 0, 0)).1 = 9 ∧
    (c2badOffs.getD (c2badOffs.length - 1) (0, 0, 0)).1 = 10 ∧
    Message.validate_body_length c2bad c2badOffs = .ok () ∧
    Message.validate_checksum c2bad c2badOffs = .ok () ∧
    Encoder.encode false false c2bad c2badOffs ≠ .ok c2bad := by
  refine ⟨by rfl, by rfl, by rfl, by rfl, by rfl, by rfl, by decide⟩

/-- C2 witness: the amended round-trip theorem applied to the concrete,
canonically rendered message `c2raw`. -/
theorem Encoder.encode_roundtrip_witness :
    Encoder.encode false false c2raw c2rawOffs = .ok c2raw :=
  Encoder.encode_roundtrip c2raw c2rawOffs 2 9 12 13 22 25 [(35, 17, 18)]
    (by rfl) (by rfl) (by decide) (by rfl) (by rfl) (by rfl) (by rfl) (by rfl)

/-- `decodeAuxU32` is `decodeAux` with every stored entry passed through the
`u32` cast: same control flow, same errors, wrapped positions. -/
theorem decodeAuxU32_eq {buf : List Nat} : ∀ (fuel pos : Nat),
    decodeAuxU32 buf fuel pos = (decodeAux buf fuel pos).map (List.map wrapEntry) := by
  intro fuel
  induction fuel with
  | zero => intro pos; rfl
  | succ g ih =>
    intro pos
    simp only [decodeAuxU32, decodeAux]
    by_cases hp : pos < buf.length
    · simp only [hp, if_true]
      cases memchrFrom FIELD_KEY_VALUE_SEPARATOR buf pos with
      | none => rfl
      | some eqPos =>
        dsimp only
        cases parse_tag (slice buf pos eqPos) with
        | none => rfl
        | some t =>
          dsimp only
          cases memchrFrom FIELD_SEPARATOR buf (eqPos + 1) with
          | none => rfl
          | some sohPos =>
            dsimp only
            rw [ih (sohPos + 1)]
            cases decodeAux buf g (sohPos + 1) with
            | error e => rfl
            | ok rest => rfl
    · simp only [hp, if_false]; rfl

theorem c9big_len : c9big.length = 4294967301 := by
  show (56 :: 61 :: 97 :: 1 :: 57 :: 61 ::
    (List.replicate 4294967294 (48 : Nat) ++ [1])).length = 4294967301
  rw [List.length_cons, List.length_cons, List.length_cons, List.length_cons,
    List.length_cons, List.length_cons, List.length_append, List.length_replicate]
  norm_num

theorem decodesFrom_8a9 (v : List Nat) (hv : (1 : Nat) ∉ v) :
    DecodesFrom (56 :: 61 :: 97 :: 1 :: 57 :: 61 :: (v ++ [1])) 0
      [(8, 2, 3), (9, 6, 6 + v.length)] := by
  have hlen : (56 :: 61 :: 97 :: 1 :: 57 :: 61 :: (v ++ [1])).length = v.length + 7 := by
    simp
  have hnil : DecodesFrom (56 :: 61 :: 97 :: 1 :: 57 :: 61 :: (v ++ [1]))
      (4 + 1 + 1 + v.length + 1) [] :=
    DecodesFrom.nil _ (by rw [hlen]; omega)
  have h2 : DecodesFrom (56 :: 61 :: 97 :: 1 :: 57 :: 61 :: (v ++ [1])) 4
      [(9, 6, 6 + v.length)] :=
    DecodesFrom.cons 4 [57] v [] 9 [] (by decide) hv (by decide) (by rfl) hnil
  exact DecodesFrom.cons 0 [56] [97] (57 :: 61 :: (v ++ [1])) 8 [(9, 6, 6 + v.length)]
    (by decide) (by decide) (by decide) (by rfl) h2

theorem c9big_decodesFrom : DecodesFrom c9big 0 [(8, 2, 3), (9, 6, 4294967300)] := by
  have h := decodesFrom_8a9 (List.replicate 4294967294 48)
    (fun hmem => absurd (List.eq_of_mem_replicate hmem) (by decide))
  rw [List.length_replicate] at h
  norm_num at h
  exact h

theorem decode_c9big : decodeU32 c9big = .ok [(8, 2, 3), (9, 6, 4)] := by
  have h := DecodesFrom.decodeAux_eq c9big_decodesFrom
    (show c9big.length - 0 < c9big.length + 1 by omega)
  unfold decodeU32
  rw [@decodeAuxU32_eq c9big (c9big.length + 1) 0, h]
  decide

/-- C9, amended: for buffers of at most `2^32` bytes — where the `u32`-stored
positions represent the true offsets — every offset entry of a successful
decode satisfies `0 ≤ value-start ≤ value-end ≤ buffer length`. On longer
buffers the stored positions wrap modulo `2^32` and the invariant fails. -/
theorem decode_offsets_in_bounds (raw : List Nat) (offs : List Entry)
    (hlen : raw.length ≤ 4294967296) (hdec : decodeU32 raw = .ok offs) :
    ∀ e ∈ offs, 0 ≤ e.2.1 ∧ e.2.1 ≤ e.2.2 ∧ e.2.2 ≤ raw.length := by
  unfold decodeU32 at hdec
  rw [@decodeAuxU32_eq raw (raw.length + 1) 0] at hdec
  cases hd : decodeAux raw (raw.length + 1) 0 with
  | error e =>
    rw [hd] at hdec
    simp [Except.map] at hdec
  | ok L0 =>
    rw [hd] at hdec
    have hoffs : offs = List.map wrapEntry L0 := by
      have hm : (Except.ok L0 : Except FixError (List Entry)).map (List.map wrapEntry)
          = Except.ok (List.map wrapEntry L0) := rfl
      rw [hm] at hdec
      injection hdec with h
      exact h.symm
    have hDF := decodeAux_ok_decodesFrom hd
    intro e he
    rw [hoffs] at he
    rcases List.mem_map.mp he with ⟨e0, he0, hwe⟩
    rcases hDF.bounds e0 he0 with ⟨a, b, c⟩
    subst hwe
    simp only [wrapEntry]
    rw [Nat.mod_eq_of_lt (show e0.2.1 < 4294967296 by omega),
      Nat.mod_eq_of_lt (show e0.2.2 < 4294967296 by omega)]
    exact ⟨Nat.zero_le _, b, by omega⟩

/-- C9 counterexample: a buffer longer than `2^32` bytes whose second field's
value crosses the 4 GiB boundary decodes successfully, but the stored
(wrapped) entry is `(9, 6, 4)` with value-start 6 > value-end 4. -/
theorem decode_offsets_in_bounds_cex :
    4294967296 < c9big.length ∧
    decodeU32 c9big = .ok [(8, 2, 3), (9, 6, 4)] ∧
    ¬ (∀ e ∈ [((8 : Tag), 2, 3), ((9 : Tag), 6, 4)], e.2.1 ≤ e.2.2) := by
  refine ⟨?_, decode_c9big, by decide⟩
  rw [c9big_len]
  norm_num

/-- C9 witness: the amended bounds theorem applied to the concrete message
`c2raw` and its first entry. -/
theorem decode_offsets_in_bounds_witness :
    0 ≤ (2 : Nat) ∧ 2 ≤ 9 ∧ 9 ≤ c2raw.length :=
  decode_offsets_in_bounds c2raw c2rawOffs (by decide) (by rfl) (8, 2, 9) (by decide)

/-- C4: whenever, at a position the decoding loop reaches, the scan for the
key/value separator or the scan for the field terminator runs off the end of
the buffer, the whole decode fails with `IncompleteMessage` — never any other
error kind. -/
theorem decode_delim_miss_incomplete (raw : List Nat) (pos : Nat)
    (hreach : Reaches raw pos) (hpos : pos < raw.length)
    (hmiss : memchrFrom FIELD_KEY_VALUE_SEPARATOR raw pos = none ∨
      ∃ q t, memchrFrom FIELD_KEY_VALUE_SEPARATOR raw pos = some q ∧
        parse_tag (slice raw pos q) = some t ∧
        memchrFrom FIELD_SEPARATOR raw (q + 1) = none) :
    decode raw = .error .IncompleteMessage := by
  apply hreach.error_propagates
  rcases hmiss with h | ⟨q, t, hq, ht, hw⟩
  · simp only [decodeAux, hpos, if_true, h]
  · simp only [decodeAux, hpos, if_true, hq, ht, hw]

/-- C4 witness: the buffer `8` (a tag with no separator yet) fails with
`IncompleteMessage`. -/
theorem decode_delim_miss_incomplete_witness :
    decode [56] = .error .IncompleteMessage :=
  decode_delim_miss_incomplete [56] 0 Reaches.zero (by decide) (Or.inl (by rfl))

/-- C10: `Encoder::encode` returns `Ok` for every message and both settings
of the two auto-calculation switches; its `Result` type notwithstanding, no
input produces an `EncodeError`. -/
theorem Encoder.encode_total (dbl dck : Bool) (buf : List Nat) (offs : List Entry) :
    ∃ out, Encoder.encode dbl dck buf offs = .ok out :=
  ⟨_, rfl⟩

theorem slice_length_of_le {raw : List Nat} {a b : Nat} (hb : b ≤ raw.length) :
    (slice raw a b).length = b - a := by
  unfold slice
  rw [List.length_take, List.length_drop]
  omega

/-- Pure unfolding of `Message.validate_body_length`: acceptance means the
three structural checks pass and the parsed declared value equals the
computed byte count `(checksum value-start − 3) − (length field end + 1)`. -/
theorem validate_body_length_ok_iff {raw : List Nat} {offs : List Entry} :
    Message.validate_body_length raw offs = .ok () ↔
    (3 ≤ offs.length ∧ (offs.getD 1 (0, 0, 0)).1 = 9 ∧
     (offs.getD (offs.length - 1) (0, 0, 0)).1 = 10 ∧
     ∃ d, parse_body_length (slice raw (offs.getD 1 (0, 0, 0)).2.1
         (offs.getD 1 (0, 0, 0)).2.2) = some d ∧
       ((offs.getD (offs.length - 1) (0, 0, 0)).2.1 - 3) -
         ((offs.getD 1 (0, 0, 0)).2.2 + 1) = d) := by
  unfold Message.validate_body_length
  by_cases h1 : offs.length < 3
  · rw [if_pos h1]
    constructor
    · intro h; simp at h
    · rintro ⟨h, -⟩; omega
  · rw [if_neg h1]
    by_cases h9 : (offs.getD 1 (0, 0, 0)).1 = 9
    · rw [if_neg (show ¬ (offs.getD 1 (0, 0, 0)).1 ≠ 9 from fun hne => hne h9)]
      by_cases h10 : (offs.getD (offs.length - 1) (0, 0, 0)).1 = 10
      · rw [if_neg (show ¬ (offs.getD (offs.length - 1) (0, 0, 0)).1 ≠ 10 from fun hne => hne h10)]
        cases hp : parse_body_length (slice raw (offs.getD 1 (0, 0, 0)).2.1
            (offs.getD 1 (0, 0, 0)).2.2) with
        | none =>
          constructor
          · intro h; simp at h
          · rintro ⟨-, -, -, d, hpd, -⟩
            cases hpd
        | some dcl =>
          dsimp only
          by_cases hc : ((offs.getD (offs.length - 1) (0, 0, 0)).2.1 - 3) -
              ((offs.getD 1 (0, 0, 0)).2.2 + 1) = dcl
          · rw [if_pos hc]
            constructor
            · intro _
              exact ⟨by omega, h9, h10, dcl, rfl, hc⟩
            · intro _
              rfl
          · rw [if_neg hc]
            constructor
            · intro h; simp at h
            · rintro ⟨-, -, -, d, hpd, hcd⟩
              injection hpd with hpd
              exact absurd (hcd.trans hpd.symm) hc
      · rw [if_pos (show (offs.getD (offs.length - 1) (0, 0, 0)).1 ≠ 10 from h10)]
        constructor
        · intro h; simp at h
        · rintro ⟨-, -, h10', -⟩; exact absurd h10' h10
    · rw [if_pos (show (offs.getD 1 (0, 0, 0)).1 ≠ 9 from h9)]
      constructor
      · intro h; simp at h
      · rintro ⟨-, h9', -⟩; exact absurd h9' h9

/-- `Message.validate_body_length` only ever returns `Ok` or
`InvalidBodyLength`. -/
theorem validate_body_length_cases (raw : List Nat) (offs : List Entry) :
    Message.validate_body_length raw offs = .ok () ∨
    Message.validate_body_length raw offs = .error .InvalidBodyLength := by
  unfold Message.validate_body_length
  by_cases h1 : offs.length < 3
  · rw [if_pos h1]; right; rfl
  · rw [if_neg h1]
    by_cases h9 : (offs.getD 1 (0, 0, 0)).1 = 9
    · rw [if_neg (show ¬ (offs.getD 1 (0, 0, 0)).1 ≠ 9 from fun hne => hne h9)]
      by_cases h10 : (offs.getD (offs.length - 1) (0, 0, 0)).1 = 10
      · rw [if_neg (show ¬ (offs.getD (offs.length - 1) (0, 0, 0)).1 ≠ 10 from
          fun hne => hne h10)]
        cases hp : parse_body_length (slice raw (offs.getD 1 (0, 0, 0)).2.1
            (offs.getD 1 (0, 0, 0)).2.2) with
        | none => right; rfl
        | some dcl =>
          dsimp only
          by_cases hc : (offs.getD (offs.length - 1) (0, 0, 0)).2.1 - 3 -
              ((offs.getD 1 (0, 0, 0)).2.2 + 1) = dcl
          · rw [if_pos hc]; left; rfl
          · rw [if_neg hc]; right; rfl
      · rw [if_pos (show (offs.getD (offs.length - 1) (0, 0, 0)).1 ≠ 10 from h10)]
        right; rfl
    · rw [if_pos (show (offs.getD 1 (0, 0, 0)).1 ≠ 9 from h9)]
      right; rfl

/-- Pure unfolding of `Message.validate_checksum`: acceptance means the
checksum field is last, its value parses, and the computed wrapped byte sum
over `buf[0 .. value-start − 3)` equals it. -/
theorem validate_checksum_ok_iff {raw : List Nat} {offs : List Entry} :
    Message.validate_checksum raw offs = .ok () ↔
    (1 ≤ offs.length ∧ (offs.getD (offs.length - 1) (0, 0, 0)).1 = 10 ∧
     ∃ d, parse_checksum (slice raw (offs.getD (offs.length - 1) (0, 0, 0)).2.1
         (offs.getD (offs.length - 1) (0, 0, 0)).2.2) = some d ∧
       compute_checksum (raw.take ((offs.getD (offs.length - 1) (0, 0, 0)).2.1 - 3)) = d) := by
  unfold Message.validate_checksum
  by_cases h1 : offs.length = 0
  · rw [if_pos h1]
    constructor
    · intro h; simp at h
    · rintro ⟨h, -⟩; omega
  · rw [if_neg h1]
    by_cases h10 : (offs.getD (offs.length - 1) (0, 0, 0)).1 = 10
    · rw [if_neg (show ¬ (offs.getD (offs.length - 1) (0, 0, 0)).1 ≠ 10 from
        fun hne => hne h10)]
      cases hp : parse_checksum (slice raw (offs.getD (offs.length - 1) (0, 0, 0)).2.1
          (offs.getD (offs.length - 1) (0, 0, 0)).2.2) with
      | none =>
        constructor
        · intro h; simp at h
        · rintro ⟨-, -, d, hpd, -⟩
          cases hpd
      | some dcl =>
        dsimp only
        by_cases hc : compute_checksum
            (raw.take ((offs.getD (offs.length - 1) (0, 0, 0)).2.1 - 3)) = dcl
        · rw [if_pos hc]
          constructor
          · intro _
            exact ⟨by omega, h10, dcl, rfl, hc⟩
          · intro _
            rfl
        · rw [if_neg hc]
          constructor
          · intro h; simp at h
          · rintro ⟨-, -, d, hpd, hcd⟩
            injection hpd with hpd
            exact absurd (hcd.trans hpd.symm) hc
    · rw [if_pos (show (offs.getD (offs.length - 1) (0, 0, 0)).1 ≠ 10 from h10)]
      constructor
      · intro h; simp at h
      · rintro ⟨-, h10', -⟩; exact absurd h10' h10

/-- `Message.validate_checksum` only ever returns `Ok` or `InvalidCheckSum`. -/
theorem validate_checksum_cases (raw : List Nat) (offs : List Entry) :
    Message.validate_checksum raw offs = .ok () ∨
    Message.validate_checksum raw offs = .error .InvalidCheckSum := by
  unfold Message.validate_checksum
  by_cases h1 : offs.length = 0
  · rw [if_pos h1]; right; rfl
  · rw [if_neg h1]
    by_cases h10 : (offs.getD (offs.length - 1) (0, 0, 0)).1 = 10
    · rw [if_neg (show ¬ (offs.getD (offs.length - 1) (0, 0, 0)).1 ≠ 10 from
        fun hne => hne h10)]
      cases hp : parse_checksum (slice raw (offs.getD (offs.length - 1) (0, 0, 0)).2.1
          (offs.getD (offs.length - 1) (0, 0, 0)).2.2) with
      | none => right; rfl
      | some dcl =>
        dsimp only
        by_cases hc : compute_checksum
            (raw.take ((offs.getD (offs.length - 1) (0, 0, 0)).2.1 - 3)) = dcl
        · rw [if_pos hc]; left; rfl
        · rw [if_neg hc]; right; rfl
    · rw [if_pos (show (offs.getD (offs.length - 1) (0, 0, 0)).1 ≠ 10 from h10)]
      right; rfl

/-- C6, amended: on a decoded message, `validate_body_length` accepts exactly
when the message has ≥ 3 fields, the length field (tag 9) is second, the
checksum field (tag 10) is last, and the length value parses to the byte
count of the region from the end of the length field up to three bytes before
the checksum field's value (the start of its tag bytes when the tag is
written canonically as `10=`); in every other case it returns
`InvalidBodyLength`. -/
theorem Message.validate_body_length_spec (raw : List Nat) (offs : List Entry)
    (hdec : decode raw = .ok offs) :
    (Message.validate_body_length raw offs = .ok () ↔ bodyLengthAmendedCond raw offs) ∧
    (Message.validate_body_length raw offs = .ok () ∨
     Message.validate_body_length raw offs = .error .InvalidBodyLength) := by
  refine ⟨?_, validate_body_length_cases raw offs⟩
  rw [validate_body_length_ok_iff]
  unfold bodyLengthAmendedCond
  have hDF := decodeAux_ok_decodesFrom hdec
  constructor
  · rintro ⟨h3, h9, h10, d, hp, hc⟩
    refine ⟨h3, h9, h10, ?_⟩
    rw [hp]
    congr 1
    rw [← hc]
    have hlt : offs.length - 1 < offs.length := by omega
    have hmem : offs.getD (offs.length - 1) (0, 0, 0) ∈ offs := by
      rw [List.getD_eq_getElem?_getD, List.getElem?_eq_getElem hlt]
      exact List.getElem_mem hlt
    rcases hDF.bounds _ hmem with ⟨-, hb2, hb3⟩
    exact (slice_length_of_le (by omega)).symm
  · rintro ⟨h3, h9, h10, hp⟩
    have hlt : offs.length - 1 < offs.length := by omega
    have hmem : offs.getD (offs.length - 1) (0, 0, 0) ∈ offs := by
      rw [List.getD_eq_getElem?_getD, List.getElem?_eq_getElem hlt]
      exact List.getElem_mem hlt
    rcases hDF.bounds _ hmem with ⟨-, hb2, hb3⟩
    exact ⟨h3, h9, h10, _, hp, (slice_length_of_le (by omega)).symm⟩

/-- C6 counterexample: a decoded message that `validate_body_length` accepts
although the declared length does not equal the byte count of the region up
to the true start of the checksum field's tag bytes. -/
theorem Message.validate_body_length_cex :
    decode c6bad = .ok c6badOffs ∧
    Message.validate_body_length c6bad c6badOffs = .ok () ∧
    ¬ bodyLengthClaim c6bad c6badOffs := by
  refine ⟨by rfl, by rfl, by decide⟩

/-- C6 witness: the amended equivalence applied to the concrete message
`c2raw`. -/
theorem Message.validate_body_length_spec_witness :
    (Message.validate_body_length c2raw c2rawOffs = .ok () ↔
      bodyLengthAmendedCond c2raw c2rawOffs) ∧
    (Message.validate_body_length c2raw c2rawOffs = .ok () ∨
     Message.validate_body_length c2raw c2rawOffs = .error .InvalidBodyLength) :=
  Message.validate_body_length_spec c2raw c2rawOffs (by rfl)

/-- C7, amended: on a decoded message, `validate_checksum` accepts exactly
when the checksum field (tag 10) is last and its value parses (as a decimal
in 0–255) to the modulo-256 sum of the raw bytes before `value-start − 3`
(the start of its tag bytes when the tag is written canonically as `10=`);
in every other case it returns `InvalidCheckSum`. -/
theorem Message.validate_checksum_spec (raw : List Nat) (offs : List Entry)
    (hdec : decode raw = .ok offs) :
    (Message.validate_checksum raw offs = .ok () ↔ checksumAmendedCond raw offs) ∧
    (Message.validate_checksum raw offs = .ok () ∨
     Message.validate_checksum raw offs = .error .InvalidCheckSum) := by
  refine ⟨?_, validate_checksum_cases raw offs⟩
  rw [validate_checksum_ok_iff]
  unfold checksumAmendedCond
  constructor
  · rintro ⟨h1, h10, d, hp, hc⟩
    refine ⟨h1, h10, ?_⟩
    rw [hp]
    congr 1
    rw [← hc, compute_checksum_eq_sum]
  · rintro ⟨h1, h10, hp⟩
    exact ⟨h1, h10, _, hp, compute_checksum_eq_sum _⟩

/-- C7 counterexample: a decoded message that `validate_checksum` accepts
although the declared value does not equal the modulo-256 sum of the bytes
before the checksum field's own tag-prefix bytes. -/
theorem Message.validate_checksum_cex :
    decode c7bad = .ok c7badOffs ∧
    Message.validate_checksum c7bad c7badOffs = .ok () ∧
    ¬ checksumClaim c7bad c7badOffs := by
  refine ⟨by rfl, by rfl, by decide⟩

/-- C7 witness: the amended equivalence applied to the concrete message
`c2raw`. -/
theorem Message.validate_checksum_spec_witness :
    (Message.validate_checksum c2raw c2rawOffs = .ok () ↔
      checksumAmendedCond c2raw c2rawOffs) ∧
    (Message.validate_checksum c2raw c2rawOffs = .ok () ∨
     Message.validate_checksum c2raw c2rawOffs = .error .InvalidCheckSum) :=
  Message.validate_checksum_spec c2raw c2rawOffs (by rfl)

/-- A non-digit byte anywhere makes `parse_count` return 0 (`group.rs`
`parse_count` bails out with 0 at the first non-digit). -/
theorem parse_countAux_invalid : ∀ {bs : List Nat} {n : Nat},
    (∃ b ∈ bs, ¬(48 ≤ b ∧ b ≤ 57)) → parse_countAux bs n = 0 := by
  intro bs
  induction bs with
  | nil => rintro n ⟨b, hb, -⟩; simp at hb
  | cons b rest ih =>
    rintro n ⟨x, hx, hbad⟩
    unfold parse_countAux
    by_cases hd : (48 ≤ b && b ≤ 57 : Bool) = true
    · rw [if_pos hd]
      apply ih
      rcases List.mem_cons.mp hx with h | h
      · exfalso
        apply hbad
        subst h
        simpa using hd
      · exact ⟨x, h, hbad⟩
    · rw [if_neg hd]

/-- C3, amended: each emitted instance is a nonempty sub-range of the
remaining region with no delimiter-tag entry strictly inside, ending at the
next delimiter-tag entry or at the end of the region; the first instance
starts at the region's first entry (whatever its tag), and each later
instance starts at a delimiter-tag entry adjacent to its predecessor. -/
theorem GroupIter.instance_shape (offs : List Entry) (d : Tag) (k : Nat) (r : GRange)
    (i : Nat) (inst : GRange) (h : (GroupIter.run offs d k r)[i]? = some inst) :
    (r.lo ≤ inst.lo ∧ inst.lo < inst.hi ∧ inst.hi ≤ r.hi) ∧
    (∀ j x, inst.lo < j → j < inst.hi → offs[j]? = some x → ¬ x.1 = d) ∧
    (inst.hi = r.hi ∨ ∃ x, offs[inst.hi]? = some x ∧ x.1 = d) ∧
    (i = 0 → inst.lo = r.lo) ∧
    (∀ ip pe, i = ip + 1 → (GroupIter.run offs d k r)[ip]? = some pe →
      pe.hi = inst.lo ∧ ∃ x, offs[inst.lo]? = some x ∧ x.1 = d) := by
  have hmem : inst ∈ GroupIter.run offs d k r := mem_of_getElem? h
  refine ⟨GroupIter.run_mem_bounds inst hmem, (GroupIter.run_extent inst hmem).1,
    (GroupIter.run_extent inst hmem).2, ?_, ?_⟩
  · intro hi0
    subst hi0
    cases hrun : GroupIter.run offs d k r with
    | nil => rw [hrun] at h; simp at h
    | cons a t' =>
      rw [hrun, List.getElem?_cons_zero] at h
      injection h with h
      rw [← h]
      exact GroupIter.run_head hrun
  · intro ip pe hip hpe
    subst hip
    exact GroupIter.run_succ hpe h

/-- C3 counterexample: a group iteration whose first emitted instance does
not start at an entry carrying the schema's delimiter tag. -/
theorem GroupIter.instance_shape_cex :
    decode c3raw = .ok c3offs ∧
    Message.groups c3raw c3offs ⟨0, 3⟩ 136 = (2, ⟨1, 3⟩) ∧
    GroupIter.run c3offs 137 2 ⟨1, 3⟩ = [⟨1, 2⟩, ⟨2, 3⟩] ∧
    ¬ (∀ inst ∈ GroupIter.run c3offs 137 2 ⟨1, 3⟩,
        ∃ x, c3offs[inst.lo]? = some x ∧ x.1 = 137) := by
  refine ⟨by rfl, by rfl, by rfl, by decide⟩

/-- C3 witness: the shape theorem applied to the second instance of the
concrete iteration over `c3offs`. -/
theorem GroupIter.instance_shape_witness :
    ((⟨1, 3⟩ : GRange).lo ≤ (⟨2, 3⟩ : GRange).lo ∧
      (⟨2, 3⟩ : GRange).lo < (⟨2, 3⟩ : GRange).hi ∧
      (⟨2, 3⟩ : GRange).hi ≤ (⟨1, 3⟩ : GRange).hi) ∧
    (∀ j x, (⟨2, 3⟩ : GRange).lo < j → j < (⟨2, 3⟩ : GRange).hi →
      c3offs[j]? = some x → ¬ x.1 = 137) ∧
    ((⟨2, 3⟩ : GRange).hi = (⟨1, 3⟩ : GRange).hi ∨
      ∃ x, c3offs[(⟨2, 3⟩ : GRange).hi]? = some x ∧ x.1 = 137) ∧
    (1 = 0 → (⟨2, 3⟩ : GRange).lo = (⟨1, 3⟩ : GRange).lo) ∧
    (∀ ip pe, 1 = ip + 1 → (GroupIter.run c3offs 137 2 ⟨1, 3⟩)[ip]? = some pe →
      pe.hi = (⟨2, 3⟩ : GRange).lo ∧
      ∃ x, c3offs[(⟨2, 3⟩ : GRange).lo]? = some x ∧ x.1 = 137) :=
  GroupIter.instance_shape c3offs 137 2 ⟨1, 3⟩ 1 ⟨2, 3⟩ (by rfl)

/-- C5: the number of instances a group iteration yields is the minimum of
the declared count and the number of delimiter-bounded segments in the
candidate region; an absent count tag yields count 0 (hence no instances),
and an invalid decimal count value is treated as 0, never an error. -/
theorem Message.groups_count (buf : List Nat) (offs : List Entry) (r : GRange) (ct d : Tag) :
    (GroupIter.run offs d (Message.groups buf offs r ct).1
        (Message.groups buf offs r ct).2).length
      = min (Message.groups buf offs r ct).1
          (delimSegments d (grange offs (Message.groups buf offs r ct).2)) ∧
    (findIdxAux (fun e => e.1 == ct) (grange offs r) r.lo = none →
      (Message.groups buf offs r ct).1 = 0) ∧
    (∀ bs : List Nat, (∃ b ∈ bs, ¬(48 ≤ b ∧ b ≤ 57)) → parse_count bs = 0) := by
  refine ⟨GroupIter.run_length, ?_, ?_⟩
  · intro hnone
    unfold Message.groups
    rw [hnone]
  · intro bs hbs
    exact parse_countAux_invalid hbs

/-- C5 witness: the counting theorem instantiated on the concrete message
`c3raw` (declared count 2, two delimiter-bounded segments). -/
theorem Message.groups_count_witness :
    (GroupIter.run c3offs 137 (Message.groups c3raw c3offs ⟨0, 3⟩ 136).1
        (Message.groups c3raw c3offs ⟨0, 3⟩ 136).2).length
      = min (Message.groups c3raw c3offs ⟨0, 3⟩ 136).1
          (delimSegments 137 (grange c3offs (Message.groups c3raw c3offs ⟨0, 3⟩ 136).2)) ∧
    (findIdxAux (fun e => e.1 == 136) (grange c3offs ⟨0, 3⟩) 0 = none →
      (Message.groups c3raw c3offs ⟨0, 3⟩ 136).1 = 0) ∧
    (∀ bs : List Nat, (∃ b ∈ bs, ¬(48 ≤ b ∧ b ≤ 57)) → parse_count bs = 0) :=
  Message.groups_count c3raw c3offs ⟨0, 3⟩ 136 137

/-- The remaining range handed to the iterator by `groups` stays inside the
range it searched: its start is at or after the searched range's start and
its end is the searched range's end. -/
theorem Message.groups_region_sub {buf : List Nat} {offs : List Entry} {r : GRange}
    {ct : Tag} (hr : r.lo ≤ r.hi) :
    r.lo ≤ (Message.groups buf offs r ct).2.lo ∧
    (Message.groups buf offs r ct).2.hi = r.hi := by
  unfold Message.groups
  cases hf : findIdxAux (fun e => e.1 == ct) (grange offs r) r.lo with
  | none => exact ⟨hr, rfl⟩
  | some i =>
    have hb := findIdxAux_some_bounds hf
    refine ⟨?_, rfl⟩
    show r.lo ≤ i + 1
    omega

/-- C8: every entry index of a nested instance obtained inside one parent
instance lies in that parent's index range, and never in a different parent
instance of the same iteration. -/
theorem Group.nested_no_cross (buf : List Nat) (offs : List Entry) (ct1 d1 ct2 d2 : Tag)
    (i j : Nat) (P Q N : GRange) (k : Nat)
    (hP : (GroupIter.run offs d1 (Message.groups buf offs ⟨0, offs.length⟩ ct1).1
      (Message.groups buf offs ⟨0, offs.length⟩ ct1).2)[i]? = some P)
    (hQ : (GroupIter.run offs d1 (Message.groups buf offs ⟨0, offs.length⟩ ct1).1
      (Message.groups buf offs ⟨0, offs.length⟩ ct1).2)[j]? = some Q)
    (hij : i ≠ j)
    (hN : N ∈ GroupIter.run offs d2 (Message.groups buf offs P ct2).1
      (Message.groups buf offs P ct2).2)
    (hk1 : N.lo ≤ k) (hk2 : k < N.hi) :
    (P.lo ≤ k ∧ k < P.hi) ∧ ¬ (Q.lo ≤ k ∧ k < Q.hi) := by
  have hPmem := mem_of_getElem? hP
  have hQmem := mem_of_getElem? hQ
  rcases GroupIter.run_mem_bounds P hPmem with ⟨hP1, hP2, hP3⟩
  rcases GroupIter.run_mem_bounds Q hQmem with ⟨hQ1, hQ2, hQ3⟩
  rcases @Message.groups_region_sub buf offs P ct2 (by omega) with ⟨hs1, hs2⟩
  rcases GroupIter.run_mem_bounds N hN with ⟨hN1, hN2, hN3⟩
  refine ⟨⟨by omega, by omega⟩, ?_⟩
  rcases List.getElem?_eq_some_iff.mp hP with ⟨hilt, hieq⟩
  rcases List.getElem?_eq_some_iff.mp hQ with ⟨hjlt, hjeq⟩
  have hpw : List.Pairwise (fun a b : GRange => a.hi ≤ b.lo)
      (GroupIter.run offs d1 (Message.groups buf offs ⟨0, offs.length⟩ ct1).1
        (Message.groups buf offs ⟨0, offs.length⟩ ct1).2) := GroupIter.run_pairwise
  rw [List.pairwise_iff_getElem] at hpw
  rcases Nat.lt_or_ge i j with hlt | hge
  · have hPQ : P.hi ≤ Q.lo := by
      have h0 := hpw i j hilt hjlt hlt
      rw [hieq, hjeq] at h0
      exact h0
    intro hc
    omega
  · have hji : j < i := by omega
    have hQP : Q.hi ≤ P.lo := by
      have h0 := hpw j i hjlt hilt hji
      rw [hjeq, hieq] at h0
      exact h0
    intro hc
    omega

/-- C8 witness: the disjointness theorem applied to the nested instance of
the first parent instance in the concrete message `c8raw`. -/
theorem Group.nested_no_cross_witness :
    ((⟨1, 4⟩ : GRange).lo ≤ 3 ∧ 3 < (⟨1, 4⟩ : GRange).hi) ∧
    ¬ ((⟨4, 6⟩ : GRange).lo ≤ 3 ∧ 3 < (⟨4, 6⟩ : GRange).hi) :=
  Group.nested_no_cross c8raw c8offs 552 54 518 519 0 1 ⟨1, 4⟩ ⟨4, 6⟩ ⟨3, 4⟩ 3
    (by rfl) (by rfl) (by decide) (by decide) (by decide) (by decide)

theorem bigRawAux_decodesFrom : ∀ (n : Nat) {raw : List Nat} {pos : Nat},
    raw.drop pos = bigRawAux n → DecodesFrom raw pos (bigOffsAux n pos) := by
  intro n
  induction n with
  | zero =>
    intro raw pos h
    have hlen := congrArg List.length h
    simp [bigRawAux] at hlen
    exact DecodesFrom.cons pos [49] [98] [] 1 [] (by decide) (by decide) (by decide)
      h (DecodesFrom.nil (pos + 4) (by omega))
  | succ n ih =>
    intro raw pos h
    have h4 : raw.drop (pos + 4) = bigRawAux n :=
      @drop_shift raw pos 4 [50, 61, 97, 1] (bigRawAux n) h rfl
    exact DecodesFrom.cons pos [50] [97] (bigRawAux n) 2 (bigOffsAux n (pos + 4))
      (by decide) (by decide) (by decide) h (ih h4)

theorem decode_bigRaw : decode bigRaw = .ok bigOffs := by
  have h := @bigRawAux_decodesFrom 65536 bigRaw 0 (List.drop_zero bigRaw)
  unfold decode
  exact DecodesFrom.decodeAux_eq h (by omega)

theorem bigOffsAux_len : ∀ (n pos : Nat), (bigOffsAux n pos).length = n + 1 := by
  intro n
  induction n with
  | zero => intro pos; rfl
  | succ n ih => intro pos; simp [bigOffsAux, ih]

theorem bigOffsAux_last : ∀ (n pos : Nat),
    (bigOffsAux n pos)[n]? = some (1, pos + 4 * n + 2, pos + 4 * n + 3) := by
  intro n
  induction n with
  | zero =>
    intro pos
    show some (1, pos + 2, pos + 3) = some (1, pos + 4 * 0 + 2, pos + 4 * 0 + 3)
    norm_num
  | succ n ih =>
    intro pos
    show ((2, pos + 2, pos + 3) :: bigOffsAux n (pos + 4))[n + 1]? =
      some (1, pos + 4 * (n + 1) + 2, pos + 4 * (n + 1) + 3)
    rw [List.getElem?_cons_succ, ih (pos + 4)]
    have h1 : pos + 4 + 4 * n + 2 = pos + 4 * (n + 1) + 2 := by ring
    have h2 : pos + 4 + 4 * n + 3 = pos + 4 * (n + 1) + 3 := by ring
    rw [h1, h2]

theorem bigOffsAux_tag1 : ∀ (n pos : Nat) (j : Nat) (e' : Entry),
    (bigOffsAux n pos)[j]? = some e' → e'.1 = 1 → j = n := by
  intro n
  induction n with
  | zero =>
    intro pos j e' hj _
    cases j with
    | zero => rfl
    | succ j' =>
      rw [show bigOffsAux 0 pos = [(1, pos + 2, pos + 3)] from rfl] at hj
      simp at hj
  | succ n ih =>
    intro pos j e' hj h1
    cases j with
    | zero =>
      rw [show bigOffsAux (n + 1) pos = (2, pos + 2, pos + 3) :: bigOffsAux n (pos + 4)
        from rfl, List.getElem?_cons_zero] at hj
      injection hj with hj
      rw [← hj] at h1
      simp at h1
    | succ j' =>
      rw [show bigOffsAux (n + 1) pos = (2, pos + 2, pos + 3) :: bigOffsAux n (pos + 4)
        from rfl, List.getElem?_cons_succ] at hj
      rw [ih (pos + 4) j' e' hj h1]

theorem bigOffsAux_find1 : ∀ (n pos : Nat),
    (bigOffsAux n pos).find? (fun e => e.1 == 1)
      = some (1, pos + 4 * n + 2, pos + 4 * n + 3) := by
  intro n
  induction n with
  | zero =>
    intro pos
    show some (1, pos + 2, pos + 3) = some (1, pos + 4 * 0 + 2, pos + 4 * 0 + 3)
    norm_num
  | succ n ih =>
    intro pos
    show List.find? (fun e => e.1 == 1) ((2, pos + 2, pos + 3) :: bigOffsAux n (pos + 4)) =
      some (1, pos + 4 * (n + 1) + 2, pos + 4 * (n + 1) + 3)
    rw [List.find?_cons_of_neg _ (by simp), ih (pos + 4)]
    have h1 : pos + 4 + 4 * n + 2 = pos + 4 * (n + 1) + 2 := by ring
    have h2 : pos + 4 + 4 * n + 3 = pos + 4 * (n + 1) + 3 := by ring
    rw [h1, h2]

theorem bigRawAux_drop : ∀ (n : Nat), (bigRawAux n).drop (4 * n) = [49, 61, 98, 1] := by
  intro n
  induction n with
  | zero => rfl
  | succ n ih =>
    show (50 :: 61 :: 97 :: 1 :: bigRawAux n).drop (4 * (n + 1)) = _
    rw [show 4 * (n + 1) = 4 * n + 1 + 1 + 1 + 1 from by ring]
    simp only [List.drop_succ_cons]
    exact ih

theorem bigRaw_slice_b : slice bigRaw 262146 262147 = [98] := by
  have h3 : bigRaw.drop 262144 = [49, 61, 98, 1] := by
    have h := bigRawAux_drop 65536
    rw [show 4 * 65536 = 262144 from by norm_num] at h
    exact h
  have h2 : bigRaw.drop 262146 = [98, 1] := by
    rw [show (262146 : Nat) = 262144 + 2 from by norm_num, ← List.drop_drop, h3]
    rfl
  unfold slice
  rw [h2]
  rfl

theorem bigOffsAux_head (n pos : Nat) :
    (bigOffsAux (n + 1) pos)[0]? = some (2, pos + 2, pos + 3) := by
  show ((2, pos + 2, pos + 3) :: bigOffsAux n (pos + 4))[0]? = _
  exact List.getElem?_cons_zero

theorem bigRaw_slice_a : slice bigRaw 2 3 = [97] := by rfl

/-- As `Message::find` on a table with a single tag-`t` entry at index `i0`,
but without the assumption `i0 < 65536`: the lookup lands at index
`i0 % 65536` (the `i as u16` truncation) and returns whatever entry sits
there. -/
theorem Message.find_wrapped {buf : List Nat} {offs : List Entry} {i0 : Nat} {t : Tag}
    {s e : Nat} {eW : Entry} (hget : offs[i0]? = some (t, s, e))
    (hW : offs[i0 % 65536]? = some eW)
    (huniq : ∀ j e', offs[j]? = some e' → e'.1 = t → j = i0) :
    Message.find buf offs t = some (eW.1, slice buf eW.2.1 eW.2.2) := by
  have hperm := sortedIndex_perm offs
  have hsort := sortedIndex_sorted offs
  have hmem : (t, i0 % 65536) ∈ sortedIndex offs := by
    rw [hperm.mem_iff, mem_indexPairsAux]
    exact ⟨i0, (t, s, e), hget, by simp⟩
  have key : ∀ p ∈ sortedIndex offs, p.1 = t → p = (t, i0 % 65536) := by
    intro p hp hpt
    rw [hperm.mem_iff, mem_indexPairsAux] at hp
    rcases hp with ⟨j, e', hj, hpe⟩
    have hjt : e'.1 = t := by rw [hpe] at hpt; exact hpt
    have hji := huniq j e' hj hjt
    rw [hpe, hjt, hji, Nat.zero_add]
  set S := sortedIndex offs with hS
  set pred := fun p : Tag × Nat => decide (p.1 < t) with hpred
  have hsplitS : S.takeWhile pred ++ S.dropWhile pred = S :=
    List.takeWhile_append_dropWhile pred S
  have hnotin : (t, i0 % 65536) ∉ S.takeWhile pred := by
    intro hmemTW
    have := List.mem_takeWhile_imp hmemTW
    simp [hpred] at this
  have hinDW : (t, i0 % 65536) ∈ S.dropWhile pred := by
    have h0 := hmem
    rw [← hsplitS, List.mem_append] at h0
    rcases h0 with h | h
    · exact absurd h hnotin
    · exact h
  cases hDW : S.dropWhile pred with
  | nil => rw [hDW] at hinDW; simp at hinDW
  | cons q r =>
    have hq : pred q = false := dropWhile_head_false hDW
    have hqt : t ≤ q.1 := by
      simp [hpred] at hq
      exact hq
    have hqmem : q ∈ S := by
      rw [← hsplitS, hDW]
      simp
    have hsorted2 : List.Sorted tagLe (q :: r) := by
      have h0 := hsort
      rw [← hsplitS, hDW] at h0
      exact (List.pairwise_append.mp h0).2.1
    have hqet : q.1 = t := by
      rw [hDW] at hinDW
      rcases List.mem_cons.mp hinDW with h | h
      · rw [← h]
      · have hrel : q.1 ≤ t := by simpa [tagLe] using List.rel_of_sorted_cons hsorted2 _ h
        exact Nat.le_antisymm hrel hqt
    have hqeq : q = (t, i0 % 65536) := key q hqmem hqet
    unfold Message.find
    dsimp only
    rw [← hS, ← hpred]
    have hidx : S[(S.takeWhile pred).length]? = some q := by
      have h1 : (S.takeWhile pred ++ S.dropWhile pred)[(S.takeWhile pred).length]? = some q := by
        rw [List.getElem?_append_right (Nat.le_refl _), hDW]
        simp
      rw [hsplitS] at h1
      exact h1
    rw [hidx]
    dsimp only
    rw [hqeq]
    simp [List.getD_eq_getElem?_getD, hW]

/-- A successful linear scan, written out: `findFirstScan` maps it through
the value slice. -/
theorem findFirstScan_eq_of_find? {buf : List Nat} {offs : List Entry} {t : Tag} {e : Entry}
    (h : offs.find? (fun x => x.1 == t) = some e) :
    findFirstScan buf offs t = some (e.1, slice buf e.2.1 e.2.2) := by
  unfold findFirstScan
  rw [h]

/-- C1: refuted as stated. On a successfully decoded message with 65537
fields — a single tag-1 field, last in wire order, preceded by 65536 tag-2
fields — the linear scan of `fields()` yields the tag-1 field with value
`b`, but `Message::find 1` returns the value `a` of the first tag-2 field
(and reports tag 2): the sorted index stores entry positions as `u16`, so
position 65536 is truncated to 0. -/
theorem Message.find_scan_divergence :
    decode bigRaw = .ok bigOffs ∧
    bigOffs.length = 65537 ∧
    findFirstScan bigRaw bigOffs 1 = some (1, [98]) ∧
    Message.find bigRaw bigOffs 1 = some (2, [97]) ∧
    Message.find bigRaw bigOffs 1 ≠ findFirstScan bigRaw bigOffs 1 := by
  have hscan : findFirstScan bigRaw bigOffs 1 = some (1, [98]) := by
    have e1 : bigOffs.find? (fun x => x.1 == 1) = some ((1 : Tag), 262146, 262147) := by
      have h := bigOffsAux_find1 65536 0
      norm_num at h
      exact h
    have h := @findFirstScan_eq_of_find? bigRaw bigOffs 1 (1, 262146, 262147) e1
    exact h.trans (congrArg (fun v => some ((1 : Tag), v)) bigRaw_slice_b)
  have hfind : Message.find bigRaw bigOffs 1 = some (2, [97]) := by
    have hget : bigOffs[(65536 : Nat)]? = some ((1 : Tag), 262146, 262147) := by
      have h := bigOffsAux_last 65536 0
      norm_num at h
      exact h
    have hW : bigOffs[(65536 : Nat) % 65536]? = some ((2 : Tag), 2, 3) := by
      rw [show (65536 : Nat) % 65536 = 0 from by norm_num]
      exact bigOffsAux_head 65535 0
    have huniq : ∀ j e', bigOffs[j]? = some e' → e'.1 = 1 → j = 65536 :=
      fun j e' hj h1 => bigOffsAux_tag1 65536 0 j e' hj h1
    have h := @Message.find_wrapped bigRaw bigOffs 65536 1 262146 262147 (2, 2, 3) hget hW huniq
    exact h.trans (congrArg (fun v => some ((2 : Tag), v)) bigRaw_slice_a)
  refine ⟨decode_bigRaw, ?_, hscan, hfind, ?_⟩
  · exact (bigOffsAux_len 65536 0).trans (by norm_num)
  · rw [hscan, hfind]
    decide

end FixCodec

